import Mathlib

/-
  Verification development for the schema-comparison engine of
  tortoise-orm-postgres-schema-sync (src/sync.py).

  The embedding is shallow: every Python function of the core
  (InspectedSchema lookups, Comparator comparisons, the regex-driven
  definition normalizers) is translated into an executable Lean
  definition.  Python exceptions (NotImplementedError on unsupported
  definition forms, AttributeError on attribute access on None) are
  modelled by `Except String`; printed report lines are accumulated as
  `List String` in print order.

  The three regular expressions of the source are modelled as explicit
  parsers over `List Char` reproducing Python `re.fullmatch` semantics
  (greedy quantifiers = longest-first backtracking over split points;
  `.` does not match a newline, a negated class does, `\w` is modelled
  as ASCII word characters, `\S` as non-whitespace).
-/

namespace SchemaSync

/-- ASCII model of the regex class `\w`: letters, digits, underscore. -/
def isWordChar (c : Char) : Bool :=
  c.isAlpha || c.isDigit || c == '_'

/-- Model of the regex class `\s`: ASCII whitespace characters. -/
def isSpaceChar (c : Char) : Bool :=
  c == ' ' || c == '\t' || c == '\n' || c == '\r' || c == '\x0b' || c == '\x0c'

/-- No newline in the list: the region a `.`-quantifier may span. -/
def nlFree (l : List Char) : Bool := l.all (fun c => c != '\n')

/-- All splits `(pre, suf)` with `pre ++ suf = l`, shortest prefix first. -/
def splitsAsc : List Char → List (List Char × List Char)
  | [] => [([], [])]
  | c :: cs => ([], c :: cs) :: (splitsAsc cs).map (fun p => (c :: p.1, p.2))

/-- All splits, longest prefix first: the order a greedy quantifier tries. -/
def splitsDesc (l : List Char) : List (List Char × List Char) := (splitsAsc l).reverse

/-- First `some` produced by `f` along the list (backtracking search). -/
def firstSome (f : α → Option β) : List α → Option β
  | [] => none
  | x :: xs =>
    match f x with
    | some b => some b
    | none => firstSome f xs

/-- Literal `FOREIGN KEY (` opening the first constraint pattern. -/
def fkPre : List Char := "FOREIGN KEY (".toList

/-- Literal `) REFERENCES ` separating the two column lists. -/
def refSep : List Char := ") REFERENCES ".toList

/-- Reassembled `main` group of the FOREIGN KEY pattern. -/
def fkMain (A B C : List Char) : List Char :=
  fkPre ++ (A ++ (refSep ++ (B ++ ('(' :: (C ++ [')'])))))

/-- One backtracking step for the `\((?P<main>....*\))(?P<extra>.+)?$` tail of
the FOREIGN KEY regex: `p.1` is the candidate for the `.*` group, `p.2` the
remainder which must open with `)`; what is left after it is the optional
`extra` group (nonempty, newline-free). -/
def fkInnerStep (A B : List Char) (p : List Char × List Char) :
    Option (List Char × Option (List Char)) :=
  if nlFree p.1 then
    match p.2 with
    | ')' :: r =>
      if r = [] then some (fkMain A B p.1, none)
      else if nlFree r then some (fkMain A B p.1, some r)
      else none
    | _ => none
  else none

/-- Greedy search for the `.*\)` part of the FOREIGN KEY regex. -/
def fkInner (A B w : List Char) : Option (List Char × Option (List Char)) :=
  firstSome (fkInnerStep A B) (splitsDesc w)

/-- One backtracking step for the `.+` group of
`FOREIGN KEY \(.+\) REFERENCES [^(]+\(...`: `p.1` is the candidate for `.+`
(nonempty, newline-free), `p.2` must open with `) REFERENCES `; then
`[^(]+` is the maximal run without `(`, which must be nonempty and be
followed by a literal `(`. -/
def fkOuterStep (p : List Char × List Char) :
    Option (List Char × Option (List Char)) :=
  if !p.1.isEmpty && nlFree p.1 && refSep.isPrefixOf p.2 then
    let u := p.2.drop refSep.length
    let B := u.takeWhile (fun c => c != '(')
    let v := u.drop B.length
    if B.isEmpty then none
    else
      match v with
      | '(' :: w => fkInner p.1 B w
      | _ => none
  else none

/-- Full-match of regex
`^(?P<main>FOREIGN KEY \(.+\) REFERENCES [^(]+\(.*\))(?P<extra>.+)?$`,
returning the `(main, extra)` groups. -/
def fkParse (s : List Char) : Option (List Char × Option (List Char)) :=
  if fkPre.isPrefixOf s then
    firstSome fkOuterStep (splitsDesc (s.drop fkPre.length))
  else none

/-- Literal `PRIMARY KEY (` opening the second constraint pattern. -/
def pkPre : List Char := "PRIMARY KEY (".toList

/-- Literal `UNIQUE (` opening the third constraint pattern. -/
def uqPre : List Char := "UNIQUE (".toList

/-- Full-match of `^(?P<main>XXX \(.+\))$` for a literal opening `pre`:
the whole string is the `main` group; it must end in `)` and hold a
nonempty newline-free middle. -/
def pkLikeParse (pre s : List Char) : Option (List Char × Option (List Char)) :=
  let rest := s.drop pre.length
  if pre.isPrefixOf s && rest.getLast? == some ')'
      && !rest.dropLast.isEmpty && nlFree rest.dropLast then
    some (s, none)
  else none

/-- The three recognized constraint forms, tried in source order. -/
def normConstraintList (s : List Char) : Option (List Char × Option (List Char)) :=
  match fkParse s with
  | some r => some r
  | none =>
    match pkLikeParse pkPre s with
    | some r => some r
    | none => pkLikeParse uqPre s

/-- Comparator._normalize_constraint_definition: `(main, extra)` on a match,
`NotImplementedError` otherwise. -/
def normalize_constraint_definition (d : String) :
    Except String (String × Option String) :=
  match normConstraintList d.toList with
  | some (m, e) => .ok (⟨m⟩, e.map (fun l => ⟨l⟩))
  | none => .error ("Cannot parse constraint definition: " ++ d)

/-- Literal `CREATE UNIQUE INDEX ` (the ` UNIQUE` alternative chosen). -/
def cuiPre : List Char := "CREATE UNIQUE INDEX ".toList

/-- Literal `CREATE INDEX ` (the empty alternative chosen). -/
def ciPre : List Char := "CREATE INDEX ".toList

/-- Literal ` ON `. -/
def onSep : List Char := " ON ".toList

/-- Literal ` USING `. -/
def usingSep : List Char := " USING ".toList

/-- Remainder of the index regex after `CREATE[ UNIQUE] INDEX `:
`\w+ ON (?P<table>\S+) USING (?P<algorithm>btree|gin) \((?P<columns>.*)\)$`.
Returns the normalized replacement string with the index name erased. -/
def idxAfter (uniq : List Char) (r : List Char) : Option (List Char) :=
  let nm := r.takeWhile isWordChar
  let r1 := r.drop nm.length
  if nm.isEmpty then none
  else if onSep.isPrefixOf r1 then
    let r2 := r1.drop onSep.length
    let tb := r2.takeWhile (fun c => !isSpaceChar c)
    let r3 := r2.drop tb.length
    if tb.isEmpty then none
    else if usingSep.isPrefixOf r3 then
      let r4 := r3.drop usingSep.length
      let alg : Option (List Char × List Char) :=
        if "btree".toList.isPrefixOf r4 then some ("btree".toList, r4.drop 5)
        else if "gin".toList.isPrefixOf r4 then some ("gin".toList, r4.drop 3)
        else none
      match alg with
      | some (a, r5) =>
        if " (".toList.isPrefixOf r5 then
          let r6 := r5.drop 2
          if r6.getLast? == some ')' && nlFree r6.dropLast then
            some ("CREATE".toList ++ uniq ++ " INDEX ... ON ".toList ++ tb
              ++ usingSep ++ a ++ " (".toList ++ r6.dropLast ++ [')'])
          else none
        else none
      | none => none
    else none
  else none

/-- Full-match of regex
`^CREATE(?P<unique> UNIQUE|) INDEX \w+ ON (?P<table>\S+) USING (?P<algorithm>btree|gin) \((?P<columns>.*)\)$`.
The two alternatives of the `unique` group are mutually exclusive. -/
def idxParse (s : List Char) : Option (List Char) :=
  if cuiPre.isPrefixOf s then idxAfter " UNIQUE".toList (s.drop cuiPre.length)
  else if ciPre.isPrefixOf s then idxAfter [] (s.drop ciPre.length)
  else none

/-- Comparator._normalize_index_definition: canonical string on a match,
`NotImplementedError` otherwise. -/
def normalize_index_definition (d : String) : Except String String :=
  match idxParse d.toList with
  | some r => .ok ⟨r⟩
  | none => .error ("Cannot parse index definition: " ++ d)

/-- Full-match of `^(?P<type>\w+)\((?P<size>.+)\)$` (the type_and_size_re):
maximal word run, literal `(`, nonempty newline-free size, final `)`. -/
def typeAndSizeList (s : List Char) : Option (List Char × List Char) :=
  let t := s.takeWhile isWordChar
  let r := s.drop t.length
  match r with
  | '(' :: r1 =>
    if !t.isEmpty && r1.getLast? == some ')' && !r1.dropLast.isEmpty
        && nlFree r1.dropLast then
      some (t, r1.dropLast)
    else none
  | _ => none

/-- Split a raw column type into (base type, optional parenthesized size);
a non-matching string is its own base type with no size. -/
def typeAndSize (s : String) : String × Option String :=
  match typeAndSizeList s.toList with
  | some (t, z) => (⟨t⟩, some ⟨z⟩)
  | none => (s, none)

/-- One column of the introspection document. -/
structure Column where
  name : String
  type : String
  comment : Option String
deriving DecidableEq, Repr

/-- One index of the introspection document (raw definition string). -/
structure Index where
  name : String
  defn : String
deriving DecidableEq, Repr

/-- One constraint of the introspection document (raw definition string). -/
structure Constraint where
  name : String
  defn : String
deriving DecidableEq, Repr

/-- One table of the introspection document. -/
structure Table where
  name : String
  type : String
  comment : Option String
  columns : List Column
  indexes : List Index
  constraints : List Constraint
deriving DecidableEq, Repr

/-- The introspection result for one database (class InspectedSchema). -/
structure InspectedSchema where
  tables : List Table
deriving DecidableEq, Repr

/-- InspectedSchema.table_names: names in document order, duplicates kept. -/
def table_names (s : InspectedSchema) : List String := s.tables.map (·.name)

/-- InspectedSchema.has_table: membership in the name-to-table dict. -/
def has_table (s : InspectedSchema) (tn : String) : Bool :=
  s.tables.any (·.name == tn)

/-- InspectedSchema.get_table: the dict comprehension keeps the LAST table
with a given name, so lookup is last-match. -/
def get_table (s : InspectedSchema) (tn : String) : Option Table :=
  s.tables.reverse.find? (·.name == tn)

/-- InspectedSchema.column_names: raises AttributeError (attribute access on
None) when the table is absent, modelled by `.error`. -/
def column_names (s : InspectedSchema) (tn : String) : Except String (List String) :=
  match get_table s tn with
  | some t => .ok (t.columns.map (·.name))
  | none => .error "AttributeError: NoneType"

/-- InspectedSchema.get_column: nested last-wins dict lookup; `none` when the
table or the column is absent. -/
def get_column (s : InspectedSchema) (tn cn : String) : Option Column :=
  match get_table s tn with
  | some t => t.columns.reverse.find? (·.name == cn)
  | none => none

/-- InspectedSchema.has_column: membership in the nested dict, `false` when
the table is absent. -/
def has_column (s : InspectedSchema) (tn cn : String) : Bool :=
  match get_table s tn with
  | some t => t.columns.any (·.name == cn)
  | none => false

/-- Lexicographic strict order on character lists by code point, the order
Python's `sorted` uses on these ASCII strings. -/
def listLt : List Char → List Char → Bool
  | _, [] => false
  | [], _ :: _ => true
  | a :: xs, b :: ys =>
    if a.toNat < b.toNat then true
    else if b.toNat < a.toNat then false
    else listLt xs ys

/-- Lexicographic strict order on strings by code point. -/
def strLt (a b : String) : Bool := listLt a.toList b.toList

/-- Insert into a strictly sorted list, dropping an already-present value. -/
def insSorted (x : String) : List String → List String
  | [] => [x]
  | y :: ys =>
    if strLt x y then x :: y :: ys
    else if x = y then y :: ys
    else y :: insSorted x ys

/-- Python `sorted(set(l))`: the strictly increasing enumeration of the
distinct elements of `l`. -/
def sortedDedup (l : List String) : List String := l.foldr insSorted []

/-- Python f-string rendering of a nullable string. -/
def optStr : Option String → String
  | none => "None"
  | some s => s

/-- Map with exception propagation and left-to-right evaluation order, as a
Python list comprehension over a raising function. -/
def mapE (f : α → Except String β) : List α → Except String (List β)
  | [] => .ok []
  | x :: xs =>
    match f x with
    | .error e => .error e
    | .ok y =>
      match mapE f xs with
      | .error e => .error e
      | .ok ys => .ok (y :: ys)

/-- Run a finding-producing action on each element in order, concatenating
the reported lines and aborting on the first exception. -/
def collectM (f : α → Except String (List String)) : List α → Except String (List String)
  | [] => .ok []
  | x :: xs =>
    match f x with
    | .error e => .error e
    | .ok h =>
      match collectM f xs with
      | .error e => .error e
      | .ok t => .ok (h ++ t)

/-- Concatenate the finding lines produced per element (pure loop body). -/
def flatList (f : α → List β) : List α → List β
  | [] => []
  | x :: xs => f x ++ flatList f xs

/-- Python dict built from a pair list: lookup returns the value of the LAST
pair with the key (later entries override earlier ones). -/
def dlookup (l : List (String × Option String)) (k : String) : Option (Option String) :=
  (l.reverse.find? (fun p => p.1 == k)).map (·.2)

/-- The Comparator's inputs: expected schema, actual schema and the ordered
type-equivalence configuration. -/
structure Comparator where
  expected : InspectedSchema
  actual : InspectedSchema
  equivalent_types : List (List String)
deriving DecidableEq, Repr

namespace Comparator

/-- Report line of the table-type comparison (expected printed first). -/
def tableTypeFindings (tn : String) (te ta : Table) : List String :=
  if te.type != ta.type then
    [tn ++ ": type mismatch: " ++ te.type ++ " != " ++ ta.type]
  else []

/-- Comparator._compare_table_type. -/
def compare_table_type (c : Comparator) (tn : String) : Except String (List String) :=
  match get_table c.expected tn, get_table c.actual tn with
  | some te, some ta => .ok (tableTypeFindings tn te ta)
  | _, _ => .error "AttributeError: NoneType"

/-- Report line of the table-comment comparison (actual printed first). -/
def tableCommentFindings (tn : String) (te ta : Table) : List String :=
  if te.comment != ta.comment then
    [tn ++ ": comment mismatch: " ++ optStr ta.comment ++ " != " ++ optStr te.comment]
  else []

/-- Comparator._compare_table_comment. -/
def compare_table_comment (c : Comparator) (tn : String) : Except String (List String) :=
  match get_table c.expected tn, get_table c.actual tn with
  | some te, some ta => .ok (tableCommentFindings tn te ta)
  | _, _ => .error "AttributeError: NoneType"

/-- The equivalence-set loop of _compare_column_type: some configured set
holds the base types of both sides. -/
def typeEquivHit (eqTypes : List (List String)) (e a : String) : Bool :=
  eqTypes.any (fun ts => ts.contains (typeAndSize e).1 && ts.contains (typeAndSize a).1)

/-- Report line of the column-type comparison on raw type strings `e` and
`a`: split both, short-circuit when some configured equivalence set holds
both base types, else report a base type mismatch, else a size mismatch. -/
def columnTypeFindings (eqTypes : List (List String)) (tn cn e a : String) : List String :=
  if typeEquivHit eqTypes e a then []
  else if (typeAndSize e).1 != (typeAndSize a).1 then
    [tn ++ "." ++ cn ++ ": type mismatch: " ++ a ++ " != " ++ e]
  else if (typeAndSize e).2 != (typeAndSize a).2 then
    [tn ++ "." ++ cn ++ ": type size mismatch: " ++ a ++ " != " ++ e]
  else []

/-- Comparator._compare_column_type. -/
def compare_column_type (c : Comparator) (tn cn : String) : Except String (List String) :=
  match get_column c.expected tn cn, get_column c.actual tn cn with
  | some ec, some ac => .ok (columnTypeFindings c.equivalent_types tn cn ec.type ac.type)
  | _, _ => .error "AttributeError: NoneType"

/-- Report line of the column-comment comparison. -/
def columnCommentFindings (tn cn : String) (ec ac : Column) : List String :=
  if ec.comment != ac.comment then
    [tn ++ "." ++ cn ++ ": comment mismatch: " ++ optStr ac.comment ++ " != " ++ optStr ec.comment]
  else []

/-- Comparator._compare_column_comment. -/
def compare_column_comment (c : Comparator) (tn cn : String) : Except String (List String) :=
  match get_column c.expected tn cn, get_column c.actual tn cn with
  | some ec, some ac => .ok (columnCommentFindings tn cn ec ac)
  | _, _ => .error "AttributeError: NoneType"

/-- Comparator._compare_column: presence on both sides, then type, then
comment. -/
def compare_column (c : Comparator) (tn cn : String) : Except String (List String) :=
  match get_column c.expected tn cn with
  | none => .ok [tn ++ "." ++ cn ++ ": column not expected"]
  | some _ =>
    match get_column c.actual tn cn with
    | none => .ok [tn ++ "." ++ cn ++ ": column not found"]
    | some _ =>
      match compare_column_type c tn cn with
      | .error e => .error e
      | .ok t =>
        match compare_column_comment c tn cn with
        | .error e => .error e
        | .ok m => .ok (t ++ m)

/-- Comparator._compare_table_columns: sorted union of the column names. -/
def compare_table_columns (c : Comparator) (tn : String) : Except String (List String) :=
  match column_names c.expected tn, column_names c.actual tn with
  | .ok ecols, .ok acols => collectM (compare_column c tn) (sortedDedup (ecols ++ acols))
  | _, _ => .error "AttributeError: NoneType"

/-- Per-index finding against the two plain lists of normalized forms. -/
def indexFinding (tn : String) (en an : List String) (x : String) : List String :=
  if !en.contains x then [tn ++ ": index not expected: " ++ x]
  else if !an.contains x then [tn ++ ": index not found: " ++ x]
  else []

/-- Report lines of the index comparison, walking the sorted set union of
the normalized forms. -/
def indexFindings (tn : String) (en an : List String) : List String :=
  flatList (indexFinding tn en an) (sortedDedup (en ++ an))

/-- Comparator._compare_table_indexes: normalize every definition on both
sides (aborting on an unsupported form), then diff. -/
def compare_table_indexes (c : Comparator) (tn : String) : Except String (List String) :=
  match get_table c.expected tn, get_table c.actual tn with
  | some te, some ta =>
    match mapE (fun i => normalize_index_definition i.defn) te.indexes with
    | .error e => .error e
    | .ok en =>
      match mapE (fun i => normalize_index_definition i.defn) ta.indexes with
      | .error e => .error e
      | .ok an => .ok (indexFindings tn en an)
  | _, _ => .error "AttributeError: NoneType"

/-- Per-key constraint finding, computed from the two collapsed key-to-extra
mappings. -/
def constraintFinding (tn : String) (ep ap : List (String × Option String))
    (k : String) : List String :=
  match dlookup ep k, dlookup ap k with
  | none, _ => [tn ++ ": constraint not expected: " ++ k]
  | some _, none => [tn ++ ": constraint not found: " ++ k]
  | some ev, some av =>
    if ev != av then
      [tn ++ ": constraint " ++ k ++ " mismatch: " ++ optStr av ++ " != " ++ optStr ev]
    else []

/-- Report lines of the constraint comparison: collapse each side's pair
list into a dict (later duplicate keys override earlier ones), then walk the
sorted union of the keys. -/
def constraintFindings (tn : String) (ep ap : List (String × Option String)) : List String :=
  flatList (constraintFinding tn ep ap) (sortedDedup (ep.map Prod.fst ++ ap.map Prod.fst))

/-- Comparator._compare_table_constraints: normalize both sides into
(key, extra) pairs (aborting on an unsupported form), then diff. -/
def compare_table_constraints (c : Comparator) (tn : String) : Except String (List String) :=
  match get_table c.expected tn, get_table c.actual tn with
  | some te, some ta =>
    match mapE (fun k => normalize_constraint_definition k.defn) te.constraints with
    | .error e => .error e
    | .ok ep =>
      match mapE (fun k => normalize_constraint_definition k.defn) ta.constraints with
      | .error e => .error e
      | .ok ap => .ok (constraintFindings tn ep ap)
  | _, _ => .error "AttributeError: NoneType"

/-- Comparator.compare_table: presence first (short-circuiting), then type,
comment, columns, indexes, constraints in the source's fixed order. -/
def compare_table (c : Comparator) (tn : String) : Except String (List String) :=
  match has_table c.expected tn with
  | false => .ok [tn ++ ": table not expected"]
  | true =>
  match has_table c.actual tn with
  | false => .ok [tn ++ ": table not found"]
  | true =>
    match compare_table_type c tn with
    | .error e => .error e
    | .ok f1 =>
      match compare_table_comment c tn with
      | .error e => .error e
      | .ok f2 =>
        match compare_table_columns c tn with
        | .error e => .error e
        | .ok f3 =>
          match compare_table_indexes c tn with
          | .error e => .error e
          | .ok f4 =>
            match compare_table_constraints c tn with
            | .error e => .error e
            | .ok f5 => .ok (f1 ++ f2 ++ f3 ++ f4 ++ f5)

/-- The sorted union of the two schemas' table names. -/
def sorted_table_names (c : Comparator) : List String :=
  sortedDedup (table_names c.expected ++ table_names c.actual)

/-- Comparator.compare: run the per-table comparison over the sorted union
of the table names, accumulating findings and aborting on the first
unsupported definition form. -/
def compare (c : Comparator) : Except String (List String) :=
  collectM (compare_table c) (sorted_table_names c)

end Comparator

/-! ### Generic helper lemmas -/

instance {ε α : Type} [DecidableEq ε] [DecidableEq α] : DecidableEq (Except ε α) := fun a b =>
  match a, b with
  | .ok x, .ok y => decidable_of_iff (x = y) ⟨fun h => by rw [h], fun h => by injection h⟩
  | .error x, .error y => decidable_of_iff (x = y) ⟨fun h => by rw [h], fun h => by injection h⟩
  | .ok _, .error _ => .isFalse (fun h => Except.noConfusion h)
  | .error _, .ok _ => .isFalse (fun h => Except.noConfusion h)

theorem firstSome_eq_some_exists {α β : Type} {f : α → Option β} :
    ∀ {l : List α} {b : β}, firstSome f l = some b → ∃ a ∈ l, f a = some b
  | [], _, h => by simp [firstSome] at h
  | x :: xs, b, h => by
    cases hfx : f x with
    | some c =>
      simp only [firstSome, hfx] at h
      exact ⟨x, List.mem_cons_self x xs, hfx.trans h⟩
    | none =>
      simp only [firstSome, hfx] at h
      obtain ⟨a, ha, hfa⟩ := firstSome_eq_some_exists h
      exact ⟨a, List.mem_cons_of_mem x ha, hfa⟩

theorem firstSome_eq_some_of_forall {α β : Type} {f : α → Option β} {b : β} :
    ∀ {l : List α}, (∀ a ∈ l, f a = none ∨ f a = some b) → (∃ a ∈ l, f a = some b) →
      firstSome f l = some b
  | [], _, hex => by simp at hex
  | x :: xs, hall, hex => by
    cases hfx : f x with
    | some c =>
      rcases hall x (List.mem_cons_self x xs) with h | h
      · exact absurd (hfx ▸ h) (by simp)
      · simp only [firstSome, hfx]
        exact hfx ▸ h
    | none =>
      simp only [firstSome, hfx]
      rcases hex with ⟨a, ha, hfa⟩
      rcases List.mem_cons.mp ha with rfl | ha'
      · exact absurd (hfx ▸ hfa) (by simp)
      · exact firstSome_eq_some_of_forall (fun a h => hall a (List.mem_cons_of_mem x h)) ⟨a, ha', hfa⟩

theorem firstSome_eq_none_of_forall {α β : Type} {f : α → Option β} :
    ∀ {l : List α}, (∀ a ∈ l, f a = none) → firstSome f l = none
  | [], _ => rfl
  | x :: xs, hall => by
    simp only [firstSome, hall x (List.mem_cons_self x xs)]
    exact firstSome_eq_none_of_forall (fun a h => hall a (List.mem_cons_of_mem x h))

theorem mem_splitsAsc : ∀ {l : List Char} {p : List Char × List Char},
    p ∈ splitsAsc l ↔ p.1 ++ p.2 = l
  | [], p => by
    simp only [splitsAsc, List.mem_singleton]
    constructor
    · rintro rfl; rfl
    · intro h
      rcases List.append_eq_nil.mp h with ⟨h1, h2⟩
      exact Prod.ext h1 h2
  | c :: cs, p => by
    simp only [splitsAsc, List.mem_cons, List.mem_map]
    constructor
    · rintro (rfl | ⟨q, hq, rfl⟩)
      · rfl
      · simp only [List.cons_append, List.cons.injEq, true_and]
        exact mem_splitsAsc.mp hq
    · intro h
      rcases hp : p.1 with _ | ⟨a, p1'⟩
      · left
        rw [hp] at h
        simp only [List.nil_append] at h
        exact Prod.ext hp h
      · right
        rw [hp, List.cons_append] at h
        injection h with h1 h2
        refine ⟨(p1', p.2), mem_splitsAsc.mpr h2, ?_⟩
        rw [← h1, ← hp]

theorem mem_splitsDesc {l : List Char} {p : List Char × List Char} :
    p ∈ splitsDesc l ↔ p.1 ++ p.2 = l := by
  rw [splitsDesc, List.mem_reverse]; exact mem_splitsAsc

theorem splitsAsc_concat : ∀ (X : List Char) (c : Char),
    splitsAsc (X ++ [c]) = (splitsAsc X).map (fun p => (p.1, p.2 ++ [c])) ++ [(X ++ [c], [])]
  | [], c => by simp [splitsAsc]
  | a :: X', c => by
    show splitsAsc (a :: (X' ++ [c])) = _
    rw [splitsAsc, splitsAsc_concat X' c, List.map_append, List.map_map]
    rw [show splitsAsc (a :: X') = ([], a :: X') :: (splitsAsc X').map (fun p => (a :: p.1, p.2)) from rfl]
    simp only [List.map_cons, List.map_map, List.cons_append]
    rfl

theorem splitsDesc_concat (X : List Char) (c : Char) :
    splitsDesc (X ++ [c]) = (X ++ [c], []) :: (splitsDesc X).map (fun p => (p.1, p.2 ++ [c])) := by
  simp only [splitsDesc]
  rw [splitsAsc_concat, List.reverse_append, ← List.map_reverse]
  rfl

theorem splitsDesc_head : ∀ (l : List Char), ∃ rest, splitsDesc l = (l, []) :: rest := by
  intro l
  induction l using List.reverseRecOn with
  | nil => exact ⟨[], rfl⟩
  | append_singleton X c _ => exact ⟨_, splitsDesc_concat X c⟩

theorem takeWhile_sandwich {p : Char → Bool} :
    ∀ {l₁ : List Char} {c : Char} {l₂ : List Char},
      (∀ a ∈ l₁, p a = true) → p c = false → (l₁ ++ c :: l₂).takeWhile p = l₁
  | [], c, l₂, _, hc => by simp [List.takeWhile_cons, hc]
  | a :: l₁', c, l₂, hall, hc => by
    simp only [List.cons_append, List.takeWhile_cons, hall a (List.mem_cons_self a l₁'),
      if_true, List.cons.injEq, true_and]
    exact takeWhile_sandwich (fun x h => hall x (List.mem_cons_of_mem a h)) hc

theorem isPrefixOf_ex {l₁ l₂ : List Char} : l₁.isPrefixOf l₂ = true ↔ ∃ t, l₂ = l₁ ++ t := by
  rw [List.isPrefixOf_iff_prefix]
  exact ⟨fun ⟨t, ht⟩ => ⟨t, ht.symm⟩, fun ⟨t, ht⟩ => ⟨t, ht.symm⟩⟩

theorem isPrefixOf_append (l₁ t : List Char) : l₁.isPrefixOf (l₁ ++ t) = true :=
  isPrefixOf_ex.mpr ⟨t, rfl⟩

theorem mapE_ok_of_forall {α β : Type} {f : α → Except String β} :
    ∀ {l : List α}, (∀ x ∈ l, ∃ y, f x = .ok y) → ∃ ys, mapE f l = .ok ys
  | [], _ => ⟨[], rfl⟩
  | x :: xs, hall => by
    obtain ⟨y, hy⟩ := hall x (List.mem_cons_self x xs)
    obtain ⟨ys, hys⟩ := mapE_ok_of_forall (fun a h => hall a (List.mem_cons_of_mem x h))
    exact ⟨y :: ys, by simp only [mapE, hy, hys]⟩

theorem mapE_error_exists {α β : Type} {f : α → Except String β} :
    ∀ {l : List α} {e : String}, mapE f l = .error e → ∃ x ∈ l, f x = .error e
  | [], e, h => by simp [mapE] at h
  | x :: xs, e, h => by
    cases hfx : f x with
    | error e' =>
      simp only [mapE, hfx] at h
      injection h with h'
      exact ⟨x, List.mem_cons_self x xs, h' ▸ hfx⟩
    | ok y =>
      simp only [mapE, hfx] at h
      cases hxs : mapE f xs with
      | error e' =>
        rw [hxs] at h
        injection h with h'
        obtain ⟨a, ha, hfa⟩ := mapE_error_exists (h' ▸ hxs)
        exact ⟨a, List.mem_cons_of_mem x ha, hfa⟩
      | ok ys => rw [hxs] at h; exact absurd h (by simp)

theorem mapE_error_of_mem {α β : Type} {f : α → Except String β} :
    ∀ {l : List α} {x : α} {e : String}, x ∈ l → f x = .error e →
      ∃ e', mapE f l = .error e'
  | [], x, e, hx, _ => absurd hx (List.not_mem_nil x)
  | y :: ys, x, e, hx, hfx => by
    cases hfy : f y with
    | error e' => exact ⟨e', by simp only [mapE, hfy]⟩
    | ok b =>
      rcases List.mem_cons.mp hx with rfl | hx'
      · rw [hfx] at hfy; exact absurd hfy (by simp)
      · obtain ⟨e', he'⟩ := mapE_error_of_mem hx' hfx
        exact ⟨e', by simp only [mapE, hfy, he']⟩

theorem mapE_ok_forall {α β : Type} {f : α → Except String β} :
    ∀ {l : List α} {ys : List β}, mapE f l = .ok ys → ∀ x ∈ l, ∃ y, f x = .ok y
  | [], _, _, x, hx => absurd hx (List.not_mem_nil x)
  | a :: l', ys, h, x, hx => by
    cases hfa : f a with
    | error e => simp only [mapE, hfa] at h; exact absurd h (by simp)
    | ok y =>
      simp only [mapE, hfa] at h
      cases hl' : mapE f l' with
      | error e => rw [hl'] at h; exact absurd h (by simp)
      | ok ys' =>
        rcases List.mem_cons.mp hx with rfl | hx'
        · exact ⟨y, hfa⟩
        · exact mapE_ok_forall hl' x hx'

theorem collectM_ok_of_forall {α : Type} {f : α → Except String (List String)} :
    ∀ {l : List α}, (∀ x ∈ l, ∃ fs, f x = .ok fs) → ∃ fs, collectM f l = .ok fs
  | [], _ => ⟨[], rfl⟩
  | x :: xs, hall => by
    obtain ⟨h1, hh⟩ := hall x (List.mem_cons_self x xs)
    obtain ⟨t, ht⟩ := collectM_ok_of_forall (fun a h => hall a (List.mem_cons_of_mem x h))
    exact ⟨h1 ++ t, by simp only [collectM, hh, ht]⟩

theorem collectM_ok_nil_of {α : Type} {f : α → Except String (List String)} :
    ∀ {l : List α}, (∀ x ∈ l, f x = .ok []) → collectM f l = .ok []
  | [], _ => rfl
  | x :: xs, hall => by
    have ht := collectM_ok_nil_of (fun a h => hall a (List.mem_cons_of_mem x h))
    simp only [collectM, hall x (List.mem_cons_self x xs), ht, List.nil_append]

theorem collectM_error_exists {α : Type} {f : α → Except String (List String)} :
    ∀ {l : List α} {e : String}, collectM f l = .error e → ∃ x ∈ l, f x = .error e
  | [], e, h => by simp [collectM] at h
  | x :: xs, e, h => by
    cases hfx : f x with
    | error e' =>
      simp only [collectM, hfx] at h
      injection h with h'
      exact ⟨x, List.mem_cons_self x xs, h' ▸ hfx⟩
    | ok fs =>
      simp only [collectM, hfx] at h
      cases hxs : collectM f xs with
      | error e' =>
        rw [hxs] at h
        injection h with h'
        obtain ⟨a, ha, hfa⟩ := collectM_error_exists (h' ▸ hxs)
        exact ⟨a, List.mem_cons_of_mem x ha, hfa⟩
      | ok t => rw [hxs] at h; exact absurd h (by simp)

theorem collectM_error_of_mem {α : Type} {f : α → Except String (List String)} :
    ∀ {l : List α} {x : α} {e : String}, x ∈ l → f x = .error e →
      ∃ e', collectM f l = .error e'
  | [], x, e, hx, _ => absurd hx (List.not_mem_nil x)
  | y :: ys, x, e, hx, hfx => by
    cases hfy : f y with
    | error e' => exact ⟨e', by simp only [collectM, hfy]⟩
    | ok fs =>
      rcases List.mem_cons.mp hx with rfl | hx'
      · rw [hfx] at hfy; exact absurd hfy (by simp)
      · obtain ⟨e', he'⟩ := collectM_error_of_mem hx' hfx
        exact ⟨e', by simp only [collectM, hfy, he']⟩

theorem listLt_irrefl : ∀ (xs : List Char), listLt xs xs = false
  | [] => rfl
  | a :: xs => by simp [listLt, listLt_irrefl xs]

theorem listLt_trans : ∀ {xs ys zs : List Char},
    listLt xs ys = true → listLt ys zs = true → listLt xs zs = true
  | _, [], _, h1, _ => by simp [listLt] at h1
  | _, _ :: _, [], _, h2 => by simp [listLt] at h2
  | [], _ :: _, _ :: _, _, _ => rfl
  | a :: xs, b :: ys, c :: zs, h1, h2 => by
    simp only [listLt] at h1 h2 ⊢
    by_cases hab : a.toNat < b.toNat <;> by_cases hba : b.toNat < a.toNat <;>
      by_cases hbc : b.toNat < c.toNat <;> by_cases hcb : c.toNat < b.toNat
    all_goals first
      | omega
      | rw [if_pos (by omega : a.toNat < c.toNat)]
      | (rw [if_neg hab, if_pos hba] at h1; exact absurd h1 (by simp))
      | (rw [if_neg hbc, if_pos hcb] at h2; exact absurd h2 (by simp))
      | (rw [if_neg hbc, if_neg hcb] at h2
         rw [if_neg hab, if_neg hba] at h1
         rw [if_neg (by omega : ¬ a.toNat < c.toNat),
           if_neg (by omega : ¬ c.toNat < a.toNat)]
         exact listLt_trans h1 h2)

theorem char_toNat_inj {a b : Char} (h : a.toNat = b.toNat) : a = b :=
  Char.ext (UInt32.ext h)

theorem listLt_of_ne : ∀ {xs ys : List Char},
    listLt xs ys = false → xs ≠ ys → listLt ys xs = true
  | [], [], _, hne => absurd rfl hne
  | [], _ :: _, h, _ => by simp [listLt] at h
  | _ :: _, [], _, _ => rfl
  | a :: xs, b :: ys, h, hne => by
    simp only [listLt] at h ⊢
    by_cases hab : a.toNat < b.toNat
    · rw [if_pos hab] at h
      exact absurd h (by simp)
    · by_cases hba : b.toNat < a.toNat
      · rw [if_pos hba]
      · have habeq : a = b := char_toNat_inj (by omega)
        subst habeq
        rw [if_neg hab, if_neg hba] at h ⊢
        refine listLt_of_ne h ?_
        intro hxy
        exact hne (by rw [hxy])

theorem strLt_irrefl (a : String) : strLt a a = false := listLt_irrefl a.toList

theorem strLt_trans {a b c : String} (h1 : strLt a b = true) (h2 : strLt b c = true) :
    strLt a c = true := listLt_trans h1 h2

theorem strLt_of_ne {a b : String} (h : strLt a b = false) (hne : a ≠ b) :
    strLt b a = true := by
  refine listLt_of_ne h ?_
  intro hdata
  exact hne (String.ext hdata)

theorem collectM_first_error {f : String → Except String (List String)} :
    ∀ {l : List String} {e : String},
      l.Pairwise (fun a b => strLt a b = true) → collectM f l = .error e →
      ∃ n ∈ l, f n = .error e ∧ ∀ m ∈ l, strLt m n = true → ∃ fs, f m = .ok fs
  | [], e, _, h => by simp [collectM] at h
  | x :: xs, e, hp, h => by
    cases hfx : f x with
    | error e' =>
      simp only [collectM, hfx] at h
      injection h with h'
      subst h'
      refine ⟨x, List.mem_cons_self x xs, hfx, ?_⟩
      intro m hm hmx
      rcases List.mem_cons.mp hm with rfl | hm'
      · rw [strLt_irrefl m] at hmx
        exact absurd hmx (by simp)
      · have hxm := (List.pairwise_cons.mp hp).1 m hm'
        have := strLt_trans hmx hxm
        rw [strLt_irrefl m] at this
        exact absurd this (by simp)
    | ok fs =>
      simp only [collectM, hfx] at h
      cases hxs : collectM f xs with
      | error e' =>
        rw [hxs] at h
        injection h with h'
        subst h'
        obtain ⟨n, hn, hfn, hbefore⟩ :=
          collectM_first_error (List.pairwise_cons.mp hp).2 hxs
        refine ⟨n, List.mem_cons_of_mem x hn, hfn, ?_⟩
        intro m hm hmn
        rcases List.mem_cons.mp hm with rfl | hm'
        · exact ⟨fs, hfx⟩
        · exact hbefore m hm' hmn
      | ok t => rw [hxs] at h; exact absurd h (by simp)

theorem flatList_eq_nil {α β : Type} {f : α → List β} :
    ∀ {l : List α}, (∀ x ∈ l, f x = []) → flatList f l = []
  | [], _ => rfl
  | x :: xs, hall => by
    simp only [flatList, hall x (List.mem_cons_self x xs), List.nil_append]
    exact flatList_eq_nil (fun a h => hall a (List.mem_cons_of_mem x h))

theorem mem_insSorted {x a : String} :
    ∀ {l : List String}, a ∈ insSorted x l ↔ a = x ∨ a ∈ l
  | [] => by simp [insSorted]
  | y :: ys => by
    by_cases h1 : strLt x y = true
    · simp only [insSorted, if_pos h1, List.mem_cons]
    · by_cases h2 : x = y
      · subst h2
        rw [insSorted, if_neg h1, if_pos rfl]
        simp only [List.mem_cons]
        tauto
      · simp only [insSorted, if_neg h1, if_neg h2, List.mem_cons, @mem_insSorted x a ys]
        tauto

theorem mem_sortedDedup {a : String} : ∀ {l : List String}, a ∈ sortedDedup l ↔ a ∈ l
  | [] => by simp [sortedDedup]
  | x :: xs => by
    have h : sortedDedup (x :: xs) = insSorted x (sortedDedup xs) := rfl
    rw [h, mem_insSorted, @mem_sortedDedup a xs, List.mem_cons]

theorem pairwise_insSorted {x : String} :
    ∀ {l : List String}, l.Pairwise (fun a b => strLt a b = true) →
      (insSorted x l).Pairwise (fun a b => strLt a b = true)
  | [], _ => by simp [insSorted]
  | y :: ys, hp => by
    by_cases h1 : strLt x y = true
    · rw [insSorted, if_pos h1]
      refine List.Pairwise.cons ?_ hp
      intro b hb
      rcases List.mem_cons.mp hb with rfl | hb'
      · exact h1
      · exact strLt_trans h1 ((List.pairwise_cons.mp hp).1 b hb')
    · by_cases h2 : x = y
      · rw [insSorted, if_neg h1, if_pos h2]
        exact hp
      · rw [insSorted, if_neg h1, if_neg h2]
        have hyx : strLt y x = true :=
          strLt_of_ne (Bool.not_eq_true _ ▸ h1 : strLt x y = false) h2
        refine List.Pairwise.cons ?_ (pairwise_insSorted (List.pairwise_cons.mp hp).2)
        intro b hb
        rcases mem_insSorted.mp hb with rfl | hb'
        · exact hyx
        · exact (List.pairwise_cons.mp hp).1 b hb'

theorem pairwise_sortedDedup : ∀ (l : List String),
    (sortedDedup l).Pairwise (fun a b => strLt a b = true)
  | [] => List.Pairwise.nil
  | x :: xs => pairwise_insSorted (pairwise_sortedDedup xs)

theorem find?_append_of_none {α : Type} {p : α → Bool} :
    ∀ {l₁ l₂ : List α}, (∀ a ∈ l₁, p a = false) → List.find? p (l₁ ++ l₂) = List.find? p l₂
  | [], _, _ => rfl
  | x :: xs, l₂, hall => by
    simp only [List.cons_append, List.find?_cons, hall x (List.mem_cons_self x xs)]
    exact find?_append_of_none (fun a h => hall a (List.mem_cons_of_mem x h))

theorem dlookup_last {k : String} {v : Option String} {xs ys : List (String × Option String)}
    (hk : k ∉ ys.map Prod.fst) :
    dlookup (xs ++ (k, v) :: ys) k = some v := by
  unfold dlookup
  have hrev : (xs ++ (k, v) :: ys).reverse = ys.reverse ++ (k, v) :: xs.reverse := by
    simp
  rw [hrev, find?_append_of_none, List.find?_cons]
  · simp
  · intro a ha
    have ha' : a ∈ ys := List.mem_reverse.mp ha
    have : a.1 ≠ k := by
      intro hkeq
      exact hk (List.mem_map.mpr ⟨a, ha', hkeq⟩)
    simpa using this

theorem dlookup_isSome_of_mem_keys {k : String} {l : List (String × Option String)}
    (hk : k ∈ l.map Prod.fst) : ∃ v, dlookup l k = some v := by
  obtain ⟨p, hp, hpk⟩ := List.mem_map.mp hk
  have hfind : (List.find? (fun q => q.1 == k) l.reverse).isSome = true := by
    rw [List.find?_isSome]
    exact ⟨p, List.mem_reverse.mpr hp, by simp [hpk]⟩
  obtain ⟨q, hq⟩ := Option.isSome_iff_exists.mp hfind
  exact ⟨q.2, by unfold dlookup; rw [hq]; rfl⟩

theorem contains_of_mem {a : String} {l : List String} (h : a ∈ l) : l.contains a = true := by
  rw [List.contains_eq_any_beq, List.any_eq_true]
  exact ⟨a, h, by simp⟩

/-! ### Schema-model lemmas -/

theorem has_table_iff {s : InspectedSchema} {tn : String} :
    has_table s tn = true ↔ ∃ t, get_table s tn = some t := by
  unfold has_table get_table
  rw [List.any_eq_true, ← Option.isSome_iff_exists, List.find?_isSome]
  constructor
  · rintro ⟨t, ht, hname⟩; exact ⟨t, List.mem_reverse.mpr ht, hname⟩
  · rintro ⟨t, ht, hname⟩; exact ⟨t, List.mem_reverse.mp ht, hname⟩

theorem get_table_mem {s : InspectedSchema} {tn : String} {t : Table}
    (h : get_table s tn = some t) : t ∈ s.tables ∧ t.name = tn := by
  unfold get_table at h
  refine ⟨List.mem_reverse.mp (List.mem_of_find?_eq_some h), ?_⟩
  have := List.find?_some h
  simpa using this

theorem mem_table_names_of_get {s : InspectedSchema} {tn : String} {t : Table}
    (h : get_table s tn = some t) : tn ∈ table_names s := by
  obtain ⟨hmem, hname⟩ := get_table_mem h
  exact List.mem_map.mpr ⟨t, hmem, hname⟩

theorem has_table_of_get {s : InspectedSchema} {tn : String} {t : Table}
    (h : get_table s tn = some t) : has_table s tn = true :=
  has_table_iff.mpr ⟨t, h⟩

theorem get_table_of_mem_names {s : InspectedSchema} {tn : String}
    (h : tn ∈ table_names s) : ∃ t, get_table s tn = some t := by
  obtain ⟨t, ht, hname⟩ := List.mem_map.mp h
  refine has_table_iff.mp ?_
  unfold has_table
  rw [List.any_eq_true]
  exact ⟨t, ht, by simp [hname]⟩

theorem get_table_none_of_not_mem {s : InspectedSchema} {tn : String}
    (h : tn ∉ table_names s) : get_table s tn = none := by
  cases hg : get_table s tn with
  | none => rfl
  | some t => exact absurd (mem_table_names_of_get hg) h

theorem column_names_ok {s : InspectedSchema} {tn : String} {t : Table}
    (h : get_table s tn = some t) :
    column_names s tn = .ok (t.columns.map (·.name)) := by
  unfold column_names; rw [h]

theorem get_column_of_mem {s : InspectedSchema} {tn : String} {t : Table} {cn : String}
    (h : get_table s tn = some t) (hc : cn ∈ t.columns.map (·.name)) :
    ∃ col, get_column s tn cn = some col := by
  unfold get_column; rw [h]
  obtain ⟨col, hcol, hname⟩ := List.mem_map.mp hc
  rw [← Option.isSome_iff_exists, List.find?_isSome]
  exact ⟨col, List.mem_reverse.mpr hcol, by simp [hname]⟩

/-! ### Comparator lemmas: the sub-comparisons are exception-free once the
guarding lookups succeed -/

theorem compare_table_type_ok {c : Comparator} {tn : String} {te ta : Table}
    (hE : get_table c.expected tn = some te) (hA : get_table c.actual tn = some ta) :
    Comparator.compare_table_type c tn = .ok (Comparator.tableTypeFindings tn te ta) := by
  unfold Comparator.compare_table_type; rw [hE, hA]

theorem compare_table_comment_ok {c : Comparator} {tn : String} {te ta : Table}
    (hE : get_table c.expected tn = some te) (hA : get_table c.actual tn = some ta) :
    Comparator.compare_table_comment c tn = .ok (Comparator.tableCommentFindings tn te ta) := by
  unfold Comparator.compare_table_comment; rw [hE, hA]

theorem compare_column_ok (c : Comparator) (tn cn : String) :
    ∃ fs, Comparator.compare_column c tn cn = .ok fs := by
  unfold Comparator.compare_column
  cases hE : get_column c.expected tn cn with
  | none => exact ⟨_, rfl⟩
  | some ec =>
    cases hA : get_column c.actual tn cn with
    | none => exact ⟨_, rfl⟩
    | some ac =>
      have h1 : Comparator.compare_column_type c tn cn
          = .ok (Comparator.columnTypeFindings c.equivalent_types tn cn ec.type ac.type) := by
        unfold Comparator.compare_column_type; rw [hE, hA]
      have h2 : Comparator.compare_column_comment c tn cn
          = .ok (Comparator.columnCommentFindings tn cn ec ac) := by
        unfold Comparator.compare_column_comment; rw [hE, hA]
      rw [h1, h2]
      exact ⟨_, rfl⟩

theorem compare_table_columns_ok {c : Comparator} {tn : String} {te ta : Table}
    (hE : get_table c.expected tn = some te) (hA : get_table c.actual tn = some ta) :
    ∃ fs, Comparator.compare_table_columns c tn = .ok fs := by
  unfold Comparator.compare_table_columns
  rw [column_names_ok hE, column_names_ok hA]
  exact collectM_ok_of_forall (fun cn _ => compare_column_ok c tn cn)

theorem compare_table_indexes_error_iff {c : Comparator} {tn : String} {te ta : Table}
    (hE : get_table c.expected tn = some te) (hA : get_table c.actual tn = some ta) :
    (∃ e, Comparator.compare_table_indexes c tn = .error e) ↔
      ∃ i ∈ te.indexes ++ ta.indexes, ∃ e, normalize_index_definition i.defn = .error e := by
  unfold Comparator.compare_table_indexes
  rw [hE, hA]
  dsimp only
  cases h1 : mapE (fun i => normalize_index_definition i.defn) te.indexes with
  | error e =>
    obtain ⟨i, hi, hie⟩ := mapE_error_exists h1
    exact ⟨fun _ => ⟨i, List.mem_append.mpr (Or.inl hi), e, hie⟩, fun _ => ⟨e, rfl⟩⟩
  | ok en =>
    cases h2 : mapE (fun i => normalize_index_definition i.defn) ta.indexes with
    | error e =>
      obtain ⟨i, hi, hie⟩ := mapE_error_exists h2
      exact ⟨fun _ => ⟨i, List.mem_append.mpr (Or.inr hi), e, hie⟩, fun _ => ⟨e, rfl⟩⟩
    | ok an =>
      constructor
      · rintro ⟨e, he⟩; exact absurd he (by simp)
      · rintro ⟨i, hi, e, hie⟩
        rcases List.mem_append.mp hi with hi' | hi'
        · obtain ⟨y, hy⟩ := mapE_ok_forall h1 i hi'
          rw [hie] at hy; exact absurd hy (by simp)
        · obtain ⟨y, hy⟩ := mapE_ok_forall h2 i hi'
          rw [hie] at hy; exact absurd hy (by simp)

theorem compare_table_constraints_error_iff {c : Comparator} {tn : String} {te ta : Table}
    (hE : get_table c.expected tn = some te) (hA : get_table c.actual tn = some ta) :
    (∃ e, Comparator.compare_table_constraints c tn = .error e) ↔
      ∃ k ∈ te.constraints ++ ta.constraints, ∃ e,
        normalize_constraint_definition k.defn = .error e := by
  unfold Comparator.compare_table_constraints
  rw [hE, hA]
  dsimp only
  cases h1 : mapE (fun k => normalize_constraint_definition k.defn) te.constraints with
  | error e =>
    obtain ⟨k, hk, hke⟩ := mapE_error_exists h1
    exact ⟨fun _ => ⟨k, List.mem_append.mpr (Or.inl hk), e, hke⟩, fun _ => ⟨e, rfl⟩⟩
  | ok ep =>
    cases h2 : mapE (fun k => normalize_constraint_definition k.defn) ta.constraints with
    | error e =>
      obtain ⟨k, hk, hke⟩ := mapE_error_exists h2
      exact ⟨fun _ => ⟨k, List.mem_append.mpr (Or.inr hk), e, hke⟩, fun _ => ⟨e, rfl⟩⟩
    | ok ap =>
      constructor
      · rintro ⟨e, he⟩; exact absurd he (by simp)
      · rintro ⟨k, hk, e, hke⟩
        rcases List.mem_append.mp hk with hk' | hk'
        · obtain ⟨y, hy⟩ := mapE_ok_forall h1 k hk'
          rw [hke] at hy; exact absurd hy (by simp)
        · obtain ⟨y, hy⟩ := mapE_ok_forall h2 k hk'
          rw [hke] at hy; exact absurd hy (by simp)

theorem compare_table_error_iff (c : Comparator) (tn : String) :
    (∃ e, Comparator.compare_table c tn = .error e) ↔
      ∃ te ta, get_table c.expected tn = some te ∧ get_table c.actual tn = some ta ∧
        ((∃ i ∈ te.indexes ++ ta.indexes, ∃ e, normalize_index_definition i.defn = .error e) ∨
         (∃ k ∈ te.constraints ++ ta.constraints, ∃ e,
           normalize_constraint_definition k.defn = .error e)) := by
  unfold Comparator.compare_table
  cases hbe : has_table c.expected tn with
  | false =>
    constructor
    · rintro ⟨e, he⟩; exact absurd he (by simp)
    · rintro ⟨te, ta, hE, _, _⟩
      rw [has_table_of_get hE] at hbe
      exact absurd hbe (by simp)
  | true =>
    cases hba : has_table c.actual tn with
    | false =>
      constructor
      · rintro ⟨e, he⟩; exact absurd he (by simp)
      · rintro ⟨te, ta, _, hA, _⟩
        rw [has_table_of_get hA] at hba
        exact absurd hba (by simp)
    | true =>
      obtain ⟨te, hE⟩ := has_table_iff.mp hbe
      obtain ⟨ta, hA⟩ := has_table_iff.mp hba
      rw [compare_table_type_ok hE hA, compare_table_comment_ok hE hA]
      obtain ⟨f3, hf3⟩ := compare_table_columns_ok hE hA
      rw [hf3]
      dsimp only
      constructor
      · rintro ⟨e, he⟩
        refine ⟨te, ta, hE, hA, ?_⟩
        cases h4 : Comparator.compare_table_indexes c tn with
        | error e4 =>
          exact Or.inl ((compare_table_indexes_error_iff hE hA).mp ⟨e4, h4⟩)
        | ok f4 =>
          rw [h4] at he
          cases h5 : Comparator.compare_table_constraints c tn with
          | error e5 =>
            exact Or.inr ((compare_table_constraints_error_iff hE hA).mp ⟨e5, h5⟩)
          | ok f5 => rw [h5] at he; exact absurd he (by simp)
      · rintro ⟨te', ta', hE', hA', hbad⟩
        rw [hE'] at hE; injection hE with hte
        rw [hA'] at hA; injection hA with hta
        subst hte; subst hta
        by_cases hidx : ∃ i ∈ te'.indexes ++ ta'.indexes, ∃ e,
            normalize_index_definition i.defn = .error e
        · obtain ⟨e4, h4⟩ := (compare_table_indexes_error_iff hE' hA').mpr hidx
          rw [h4]
          exact ⟨e4, rfl⟩
        · have hcon : ∃ k ∈ te'.constraints ++ ta'.constraints, ∃ e,
              normalize_constraint_definition k.defn = .error e := by
            rcases hbad with h | h
            · exact absurd h hidx
            · exact h
          obtain ⟨e5, h5⟩ := (compare_table_constraints_error_iff hE' hA').mpr hcon
          cases h4 : Comparator.compare_table_indexes c tn with
          | error e4 => exact ⟨e4, rfl⟩
          | ok f4 => rw [h5]; exact ⟨e5, rfl⟩

/-! ### Characterization of the FOREIGN KEY backtracking parse, leading to
idempotence of constraint-key extraction -/

theorem nlFree_false_of_mem {l : List Char} (h : '\n' ∈ l) : nlFree l = false := by
  unfold nlFree
  rw [Bool.eq_false_iff]
  intro hall
  have := List.all_eq_true.mp hall '\n' h
  simp at this

theorem mem_of_nlFree_false {l : List Char} (h : nlFree l = false) : '\n' ∈ l := by
  unfold nlFree at h
  rw [Bool.eq_false_iff] at h
  by_contra hn
  apply h
  rw [List.all_eq_true]
  intro x hx
  simp only [bne_iff_ne, ne_eq]
  intro heq
  exact hn (heq ▸ hx)

theorem firstSome_map {α β γ : Type} (f : β → Option γ) (g : α → β) :
    ∀ (l : List α), firstSome f (l.map g) = firstSome (fun a => f (g a)) l
  | [] => rfl
  | x :: xs => by
    cases h : f (g x) with
    | some b => simp only [List.map_cons, firstSome, h]
    | none =>
      simp only [List.map_cons, firstSome, h]
      exact firstSome_map f g xs

theorem fkInner_nil (A B : List Char) : fkInner A B [] = none := rfl

theorem fkInnerStep_closer (A B X : List Char) :
    fkInnerStep A B (X, [')']) =
      if nlFree X = true then some (fkMain A B X, none) else none := by
  unfold fkInnerStep
  by_cases h : nlFree X = true
  · rw [if_pos h, if_pos h]
    rfl
  · rw [if_neg h, if_neg h]

theorem fkInner_concat (A B X : List Char) :
    fkInner A B (X ++ [')']) =
      if nlFree X = true then some (fkMain A B X, none) else none := by
  unfold fkInner
  rw [splitsDesc_concat]
  have hstep0 : fkInnerStep A B (X ++ [')'], []) = none := by
    unfold fkInnerStep
    split
    · rfl
    · rfl
  simp only [firstSome, hstep0]
  rw [firstSome_map]
  obtain ⟨rest, hrest⟩ := splitsDesc_head X
  rw [hrest]
  simp only [firstSome, List.nil_append]
  cases h : nlFree X with
  | true =>
    rw [fkInnerStep_closer, if_pos h, if_pos rfl]
  | false =>
    rw [fkInnerStep_closer, if_neg (by simp [h]), if_neg (by simp)]
    show firstSome (fun a => fkInnerStep A B (a.1, a.2 ++ [')'])) rest = none
    have hnl : '\n' ∈ X := mem_of_nlFree_false h
    apply firstSome_eq_none_of_forall
    intro p hp
    have hpX : p.1 ++ p.2 = X := by
      apply mem_splitsDesc.mp
      rw [hrest]
      exact List.mem_cons_of_mem _ hp
    cases hp2 : p.2 with
    | nil =>
      have hpx1 : p.1 = X := by rw [← hpX, hp2, List.append_nil]
      rw [hpx1, List.nil_append, fkInnerStep_closer, if_neg (by simp [h])]
    | cons c p2' =>
      unfold fkInnerStep
      dsimp only
      by_cases hnp1 : nlFree p.1 = true
      · rw [if_pos hnp1]
        have hmem : '\n' ∈ c :: p2' := by
          rw [← hpX, hp2] at hnl
          rcases List.mem_append.mp hnl with h' | h'
          · exact absurd (nlFree_false_of_mem h') (by simp [hnp1])
          · exact h'
        by_cases hc : c = ')'
        · subst hc
          have hr : p2' ++ [')'] ≠ [] := by simp
          have hmem2 : '\n' ∈ p2' := by
            rcases List.mem_cons.mp hmem with h' | h'
            · exact absurd h'.symm (by decide)
            · exact h'
          have hnlr : nlFree (p2' ++ [')']) = false :=
            nlFree_false_of_mem (List.mem_append.mpr (Or.inl hmem2))
          show (if p2' ++ [')'] = [] then some (fkMain A B p.1, none)
            else if nlFree (p2' ++ [')']) = true then some (fkMain A B p.1, some (p2' ++ [')']))
            else none) = none
          rw [if_neg hr, if_neg (by simp [hnlr])]
        · split
          · next r heq =>
            injection heq with hceq
            exact absurd hceq hc
          · rfl
      · rw [if_neg hnp1]

theorem ne_nil_of_isEmpty_false {l : List Char} (h : l.isEmpty = false) : l ≠ [] := by
  intro hnil
  rw [hnil] at h
  exact absurd h (by decide)

theorem isEmpty_false_of_ne_nil {l : List Char} (h : l ≠ []) : l.isEmpty = false := by
  cases l with
  | nil => exact absurd rfl h
  | cons a t => rfl

theorem takeWhile_drop_eq (u : List Char) (p : Char → Bool) :
    u.takeWhile p ++ u.drop (u.takeWhile p).length = u := by
  conv_rhs => rw [← List.take_append_drop (u.takeWhile p).length u]
  congr 1
  exact List.prefix_iff_eq_take.mp (List.takeWhile_prefix p)

theorem fkOuterStep_self (A B C : List Char) (hA : A ≠ []) (hAnl : nlFree A = true)
    (hB : B ≠ []) (hBp : ∀ b ∈ B, (b != '(') = true) (hC : nlFree C = true) :
    fkOuterStep (A, refSep ++ (B ++ ('(' :: (C ++ [')'])))) = some (fkMain A B C, none) := by
  unfold fkOuterStep
  dsimp only
  have hcond : (!A.isEmpty && nlFree A
      && refSep.isPrefixOf (refSep ++ (B ++ ('(' :: (C ++ [')']))))) = true := by
    rw [Bool.and_eq_true, Bool.and_eq_true]
    refine ⟨⟨?_, hAnl⟩, isPrefixOf_append refSep _⟩
    rw [isEmpty_false_of_ne_nil hA]
    rfl
  rw [if_pos hcond, List.drop_left refSep]
  have htw : (B ++ ('(' :: (C ++ [')']))).takeWhile (fun c => c != '(') = B :=
    takeWhile_sandwich hBp (by decide)
  rw [htw, List.drop_left B]
  rw [if_neg (by simp [isEmpty_false_of_ne_nil hB])]
  show fkInner A B (C ++ [')']) = some (fkMain A B C, none)
  rw [fkInner_concat, if_pos hC]

theorem fkOuterStep_none_or {t : List Char} (hlast : ∃ Y, t = Y ++ [')'])
    {p : List Char × List Char} (hp : p.1 ++ p.2 = t) :
    fkOuterStep p = none ∨ fkOuterStep p = some (fkPre ++ t, none) := by
  unfold fkOuterStep
  by_cases hcond : (!p.1.isEmpty && nlFree p.1 && refSep.isPrefixOf p.2) = true
  · rw [if_pos hcond]
    dsimp only
    have hcond' := hcond
    simp only [Bool.and_eq_true] at hcond'
    obtain ⟨⟨hc1a, hc2⟩, hc3⟩ := hcond'
    obtain ⟨u, hu⟩ := isPrefixOf_ex.mp hc3
    rw [hu, List.drop_left refSep]
    by_cases hB : (u.takeWhile (fun c => c != '(')).isEmpty = true
    · rw [if_pos hB]
      exact Or.inl rfl
    · rw [if_neg hB]
      have hu2 := takeWhile_drop_eq u (fun c => c != '(')
      generalize hBg : u.takeWhile (fun c => c != '(') = Bv
      rw [hBg] at hu2
      cases hv : u.drop Bv.length with
      | nil => exact Or.inl rfl
      | cons cch w =>
        rw [hv] at hu2
        by_cases hcc : cch = '('
        · subst hcc
          rcases List.eq_nil_or_concat w with rfl | ⟨X, cc2, rfl⟩
          · exact Or.inl (fkInner_nil p.1 Bv)
          · simp only [List.concat_eq_append] at hv hu2 ⊢
            have htEq : t = p.1 ++ (refSep ++ (Bv ++ ('(' :: (X ++ [cc2])))) := by
              rw [← hp, hu, ← hu2]
            obtain ⟨Y, hY⟩ := hlast
            have hcc2 : cc2 = ')' := by
              have h1 : t.getLast? = some cc2 := by
                rw [htEq]
                rw [show p.1 ++ (refSep ++ (Bv ++ ('(' :: (X ++ [cc2]))))
                  = (p.1 ++ refSep ++ Bv ++ '(' :: X) ++ [cc2] by simp]
                exact List.getLast?_concat _
              have h2 : t.getLast? = some ')' := by
                rw [hY]
                exact List.getLast?_concat _
              rw [h1] at h2
              exact Option.some.inj h2
            subst hcc2
            show fkInner p.1 Bv (X ++ [')']) = none ∨
              fkInner p.1 Bv (X ++ [')']) = some (fkPre ++ t, none)
            rw [fkInner_concat]
            by_cases hnl : nlFree X = true
            · rw [if_pos hnl]
              right
              rw [htEq]
              unfold fkMain
              simp
            · rw [if_neg hnl]
              exact Or.inl rfl
        · left
          split
          · next w' heq =>
            injection heq with h1 h2
            exact absurd h1 hcc
          · rfl
  · rw [if_neg hcond]
    exact Or.inl rfl

theorem fkParse_fkMain (A B C : List Char) (hA : A ≠ []) (hAnl : nlFree A = true)
    (hB : B ≠ []) (hBp : ∀ b ∈ B, (b != '(') = true) (hC : nlFree C = true) :
    fkParse (fkMain A B C) = some (fkMain A B C, none) := by
  unfold fkParse fkMain
  rw [if_pos (isPrefixOf_append fkPre _), List.drop_left fkPre]
  apply firstSome_eq_some_of_forall
  · intro p hp
    have hpr : p.1 ++ p.2 = A ++ (refSep ++ (B ++ ('(' :: (C ++ [')'])))) :=
      mem_splitsDesc.mp hp
    have hl : ∃ Y, A ++ (refSep ++ (B ++ ('(' :: (C ++ [')'])))) = Y ++ [')'] :=
      ⟨A ++ (refSep ++ (B ++ ('(' :: C))), by simp⟩
    rcases fkOuterStep_none_or hl hpr with h' | h'
    · exact Or.inl h'
    · exact Or.inr h'
  · refine ⟨(A, refSep ++ (B ++ ('(' :: (C ++ [')'])))), mem_splitsDesc.mpr rfl, ?_⟩
    exact fkOuterStep_self A B C hA hAnl hB hBp hC

theorem fkInnerStep_shape {A B m : List Char} {e : Option (List Char)}
    {p : List Char × List Char} (h : fkInnerStep A B p = some (m, e)) :
    ∃ C, m = fkMain A B C ∧ nlFree C = true := by
  unfold fkInnerStep at h
  by_cases hnl : nlFree p.1 = true
  · rw [if_pos hnl] at h
    split at h
    · next r heq =>
      by_cases hr : r = []
      · rw [if_pos hr] at h
        injection h with h'
        exact ⟨p.1, (congrArg Prod.fst h').symm, hnl⟩
      · rw [if_neg hr] at h
        by_cases hnr : nlFree r = true
        · rw [if_pos hnr] at h
          injection h with h'
          exact ⟨p.1, (congrArg Prod.fst h').symm, hnl⟩
        · rw [if_neg hnr] at h
          exact absurd h (by simp)
    · exact absurd h (by simp)
  · rw [if_neg hnl] at h
    exact absurd h (by simp)

theorem fkInner_shape {A B w m : List Char} {e : Option (List Char)}
    (h : fkInner A B w = some (m, e)) :
    ∃ C, m = fkMain A B C ∧ nlFree C = true := by
  obtain ⟨p, _, hstep⟩ := firstSome_eq_some_exists h
  exact fkInnerStep_shape hstep

theorem fkOuterStep_shape {m : List Char} {e : Option (List Char)}
    {p : List Char × List Char} (h : fkOuterStep p = some (m, e)) :
    ∃ A B C, m = fkMain A B C ∧ A ≠ [] ∧ nlFree A = true ∧ B ≠ [] ∧
      (∀ b ∈ B, (b != '(') = true) ∧ nlFree C = true := by
  unfold fkOuterStep at h
  by_cases hcond : (!p.1.isEmpty && nlFree p.1 && refSep.isPrefixOf p.2) = true
  · rw [if_pos hcond] at h
    dsimp only at h
    have hcond' := hcond
    simp only [Bool.and_eq_true] at hcond'
    obtain ⟨⟨hc1a, hc2⟩, hc3⟩ := hcond'
    by_cases hB : ((p.2.drop refSep.length).takeWhile (fun c => c != '(')).isEmpty = true
    · rw [if_pos hB] at h
      exact absurd h (by simp)
    · rw [if_neg hB] at h
      split at h
      · next w heq =>
        obtain ⟨C, hm, hC⟩ := fkInner_shape h
        refine ⟨p.1, (p.2.drop refSep.length).takeWhile (fun c => c != '('), C, hm,
          ne_nil_of_isEmpty_false (by simpa using hc1a), hc2,
          ne_nil_of_isEmpty_false (by simpa using hB), ?_, hC⟩
        intro b hb
        have hmt := List.mem_takeWhile_imp hb
        exact hmt
      · exact absurd h (by simp)
  · rw [if_neg hcond] at h
    exact absurd h (by simp)

theorem fkParse_shape {s m : List Char} {e : Option (List Char)}
    (h : fkParse s = some (m, e)) :
    ∃ A B C, m = fkMain A B C ∧ A ≠ [] ∧ nlFree A = true ∧ B ≠ [] ∧
      (∀ b ∈ B, (b != '(') = true) ∧ nlFree C = true := by
  unfold fkParse at h
  by_cases hpre : fkPre.isPrefixOf s = true
  · rw [if_pos hpre] at h
    obtain ⟨p, _, hstep⟩ := firstSome_eq_some_exists h
    exact fkOuterStep_shape hstep
  · rw [if_neg hpre] at h
    exact absurd h (by simp)

theorem pkLikeParse_shape {pre s : List Char} {r : List Char × Option (List Char)}
    (h : pkLikeParse pre s = some r) : r = (s, none) := by
  simp only [pkLikeParse] at h
  split at h
  · injection h with h'
    exact h'.symm
  · exact absurd h (by simp)

/-- C9: constraint key extraction is idempotent: whenever a constraint
definition matches one of the three recognized forms and normalizes to
(main, extra), normalizing the extracted main part again yields the same
main part with no extra part. -/
theorem claim_C9 (d m : String) (e : Option String)
    (h : normalize_constraint_definition d = .ok (m, e)) :
    normalize_constraint_definition m = .ok (m, none) := by
  unfold normalize_constraint_definition at h ⊢
  cases hn : normConstraintList d.toList with
  | none =>
    rw [hn] at h
    exact absurd h (by simp)
  | some r =>
    rw [hn] at h
    obtain ⟨ml, el⟩ := r
    injection h with h'
    have hm : m = ⟨ml⟩ := (congrArg Prod.fst h').symm
    subst hm
    unfold normConstraintList at hn
    cases hfk : fkParse d.toList with
    | some r' =>
      rw [hfk] at hn
      injection hn with hn'
      subst hn'
      obtain ⟨A, B, C, hml, hA, hAnl, hB, hBp, hC⟩ := fkParse_shape hfk
      have hfix : normConstraintList (⟨ml⟩ : String).toList = some (ml, none) := by
        show normConstraintList ml = some (ml, none)
        unfold normConstraintList
        rw [hml, fkParse_fkMain A B C hA hAnl hB hBp hC]
      rw [hfix]
      rfl
    | none =>
      rw [hfk] at hn
      have hml : ml = d.toList ∧ el = none := by
        cases hpk : pkLikeParse pkPre d.toList with
        | some r2 =>
          rw [hpk] at hn
          injection hn with hn'
          have hsh := pkLikeParse_shape hpk
          rw [hsh] at hn'
          exact ⟨(congrArg Prod.fst hn').symm, (congrArg Prod.snd hn').symm⟩
        | none =>
          rw [hpk] at hn
          have hsh := pkLikeParse_shape hn
          exact ⟨congrArg Prod.fst hsh, congrArg Prod.snd hsh⟩
      have hfull : normConstraintList d.toList = some (d.toList, none) := by
        unfold normConstraintList
        rw [hfk]
        cases hpk : pkLikeParse pkPre d.toList with
        | some r2 =>
          rw [pkLikeParse_shape hpk]
        | none =>
          rw [hpk] at hn
          rw [hn, hml.1, hml.2]
      have hfix : normConstraintList (⟨ml⟩ : String).toList = some (ml, none) := by
        show normConstraintList ml = some (ml, none)
        rw [hml.1, hfull]
      rw [hfix]
      rfl

theorem claim_C9_witness :
    normalize_constraint_definition "FOREIGN KEY (a) REFERENCES b(c)" =
      .ok ("FOREIGN KEY (a) REFERENCES b(c)", none) :=
  claim_C9 "FOREIGN KEY (a) REFERENCES b(c) ON DELETE CASCADE"
    "FOREIGN KEY (a) REFERENCES b(c)" (some " ON DELETE CASCADE") (by decide)

/-! ### Example schemas used to instantiate the theorems -/

/-- Schema holding a single bare table `t`. -/
def exTblOnly : InspectedSchema := ⟨[⟨"t", "BASE TABLE", none, [], [], []⟩]⟩

/-- The empty schema. -/
def exEmpty : InspectedSchema := ⟨[]⟩

/-- Comparator whose expected side alone holds table `t`. -/
def exOnlyExpected : Comparator := ⟨exTblOnly, exEmpty, []⟩

/-- Comparator whose actual side alone holds table `t`. -/
def exOnlyActual : Comparator := ⟨exEmpty, exTblOnly, []⟩

/-- Comparator with column `p` typed `a(1)` against `a(2)` under the
equivalence configuration `[[a]]`. -/
def exEquivSize : Comparator :=
  ⟨⟨[⟨"t", "BASE TABLE", none, [⟨"p", "a(1)", none⟩], [], []⟩]⟩,
   ⟨[⟨"t", "BASE TABLE", none, [⟨"p", "a(2)", none⟩], [], []⟩]⟩,
   [["a"]]⟩

/-- Comparator with column `price` typed `numeric(10,2)` against
`numeric(10,4)` under the default empty equivalence configuration. -/
def exNumeric : Comparator :=
  ⟨⟨[⟨"t", "BASE TABLE", none, [⟨"price", "numeric(10,2)", none⟩], [], []⟩]⟩,
   ⟨[⟨"t", "BASE TABLE", none, [⟨"price", "numeric(10,4)", none⟩], [], []⟩]⟩,
   []⟩

/-! ### Claims -/

/-- C10: for a table name not present in the schema, the table lookup and
the column lookup return the absent-value sentinel `none` and the
column-existence check returns `false`, but the list-of-column-names
operation raises (attribute access on the sentinel, modelled as an
AttributeError value) instead of returning a sentinel or an empty list. -/
theorem claim_C10 (s : InspectedSchema) (tn : String) (h : tn ∉ table_names s) :
    get_table s tn = none ∧
    column_names s tn = .error "AttributeError: NoneType" ∧
    (∀ cn, get_column s tn cn = none ∧ has_column s tn cn = false) := by
  have hg : get_table s tn = none := get_table_none_of_not_mem h
  refine ⟨hg, ?_, fun cn => ⟨?_, ?_⟩⟩
  · unfold column_names; rw [hg]
  · unfold get_column; rw [hg]
  · unfold has_column; rw [hg]

theorem claim_C10_witness :
    get_table exTblOnly "nope" = none ∧
    column_names exTblOnly "nope" = .error "AttributeError: NoneType" ∧
    get_column exTblOnly "nope" "c" = none ∧
    has_column exTblOnly "nope" "c" = false := by
  have h := claim_C10 exTblOnly "nope" (by decide)
  exact ⟨h.1, h.2.1, (h.2.2 "c").1, (h.2.2 "c").2⟩

/-- C6: type comparison is symmetric under the configured equivalence sets:
when type names A and B are both members of one configured set, a column
whose expected base type is A and whose actual base type is B produces no
type-mismatch finding, and likewise with A and B swapped, regardless of the
order in which A and B are listed in the set. -/
theorem claim_C6 (A B : String) (ts : List String) (c : Comparator)
    (hts : ts ∈ c.equivalent_types) (hA : A ∈ ts) (hB : B ∈ ts) :
    ∀ tn cn ec ac,
      get_column c.expected tn cn = some ec →
      get_column c.actual tn cn = some ac →
      (((typeAndSize ec.type).1 = A ∧ (typeAndSize ac.type).1 = B) ∨
       ((typeAndSize ec.type).1 = B ∧ (typeAndSize ac.type).1 = A)) →
      Comparator.compare_column_type c tn cn = .ok [] := by
  intro tn cn ec ac hE hAc hor
  have hval : Comparator.compare_column_type c tn cn =
      .ok (Comparator.columnTypeFindings c.equivalent_types tn cn ec.type ac.type) := by
    unfold Comparator.compare_column_type
    rw [hE, hAc]
  have hhit : Comparator.typeEquivHit c.equivalent_types ec.type ac.type = true := by
    unfold Comparator.typeEquivHit
    rw [List.any_eq_true]
    rcases hor with ⟨h1, h2⟩ | ⟨h1, h2⟩
    · refine ⟨ts, hts, ?_⟩
      rw [h1, h2, contains_of_mem hA, contains_of_mem hB]
      rfl
    · refine ⟨ts, hts, ?_⟩
      rw [h1, h2, contains_of_mem hB, contains_of_mem hA]
      rfl
  have hnil : Comparator.columnTypeFindings c.equivalent_types tn cn ec.type ac.type = [] := by
    unfold Comparator.columnTypeFindings
    rw [if_pos hhit]
  rw [hval, hnil]

theorem claim_C6_witness :
    Comparator.compare_column_type exEquivSize "t" "p" = .ok [] := by
  refine claim_C6 "a" "a" ["a"] exEquivSize (by decide) (by decide) (by decide)
    "t" "p" ⟨"p", "a(1)", none⟩ ⟨"p", "a(2)", none⟩ (by decide) (by decide) ?_
  left
  exact ⟨by decide, by decide⟩

/-- C1 counterexample: with table `t` present only in the expected schema,
the code emits the finding `t: table not found`, not the finding labeled
`table not expected` that the claim assigns to this case (the claim has the
two labels swapped). -/
theorem claim_C1_counterexample :
    Comparator.compare exOnlyExpected = .ok ["t: table not found"] ∧
    Comparator.compare exOnlyActual = .ok ["t: table not expected"] ∧
    ("t: table not found" : String) ≠ "t: table not expected" := by
  refine ⟨by decide, by decide, by decide⟩

/-- C1 (amended): for a table name absent from the expected schema (present
only in the actual one) the per-table comparison emits the finding labeled
`table not expected`; for one present in expected but absent from actual it
emits the finding labeled `table not found`. -/
theorem claim_C1 (c : Comparator) (tn : String) :
    (has_table c.expected tn = false →
      Comparator.compare_table c tn = .ok [tn ++ ": table not expected"]) ∧
    (has_table c.expected tn = true → has_table c.actual tn = false →
      Comparator.compare_table c tn = .ok [tn ++ ": table not found"]) := by
  constructor
  · intro h
    unfold Comparator.compare_table
    rw [h]
  · intro h1 h2
    unfold Comparator.compare_table
    rw [h1, h2]

theorem claim_C1_witness :
    Comparator.compare_table exOnlyExpected "t" = .ok ["t: table not found"] :=
  (claim_C1 exOnlyExpected "t").2 (by decide) (by decide)

/-- C7: for a table name present in exactly one of the two schemas, the
per-table comparison produces exactly one finding - the presence finding -
and no column, index, constraint, type or comment findings. -/
theorem claim_C7 (c : Comparator) (tn : String)
    (h : has_table c.expected tn ≠ has_table c.actual tn) :
    ∃ m, Comparator.compare_table c tn = .ok [m] ∧
      (m = tn ++ ": table not expected" ∨ m = tn ++ ": table not found") := by
  cases hbe : has_table c.expected tn with
  | false =>
    refine ⟨tn ++ ": table not expected", ?_, Or.inl rfl⟩
    unfold Comparator.compare_table
    rw [hbe]
  | true =>
    cases hba : has_table c.actual tn with
    | false =>
      refine ⟨tn ++ ": table not found", ?_, Or.inr rfl⟩
      unfold Comparator.compare_table
      rw [hbe, hba]
    | true => rw [hbe, hba] at h; exact absurd rfl h

theorem claim_C7_witness :
    ∃ m, Comparator.compare_table exOnlyActual "t" = .ok [m] ∧
      (m = "t" ++ ": table not expected" ∨ m = "t" ++ ": table not found") :=
  claim_C7 exOnlyActual "t" (by decide)

/-- C3 counterexample: with expected `a(1)` against actual `a(2)` and the
base type `a` placed in a configured equivalence set, the base types are
equal after mapping through the sets and the raw sizes differ, yet the
comparison emits no finding at all - the equivalence match short-circuits
the size comparison, contradicting the claim that sizes are compared
whenever the mapped base types agree. -/
theorem claim_C3_counterexample :
    (typeAndSize "a(1)").1 = (typeAndSize "a(2)").1 ∧
    (typeAndSize "a(1)").2 ≠ (typeAndSize "a(2)").2 ∧
    Comparator.typeEquivHit exEquivSize.equivalent_types "a(1)" "a(2)" = true ∧
    Comparator.compare_column_type exEquivSize "t" "p" = .ok [] ∧
    Comparator.compare exEquivSize = .ok [] := by
  refine ⟨by decide, by decide, by decide, by decide, by decide⟩

/-- C3 (amended): each raw type is split into (base type, parenthesized
size); when some configured equivalence set holds both base types the whole
type comparison short-circuits with no finding (sizes are then not
compared); otherwise a base-type mismatch is reported when the base types
differ, and only when they are equal are the raw sizes compared, reporting a
size mismatch when they differ; at most one finding is ever produced for a
column's type, so a base-type mismatch and a size mismatch are never both
reported; in particular `numeric(10,2)` against `numeric(10,4)` under the
empty configuration yields exactly the type-size-mismatch finding. -/
theorem claim_C3 (c : Comparator) (tn cn : String) (ec ac : Column)
    (hE : get_column c.expected tn cn = some ec)
    (hA : get_column c.actual tn cn = some ac) :
    Comparator.compare_column_type c tn cn =
      .ok (Comparator.columnTypeFindings c.equivalent_types tn cn ec.type ac.type) ∧
    (Comparator.typeEquivHit c.equivalent_types ec.type ac.type = true →
      Comparator.columnTypeFindings c.equivalent_types tn cn ec.type ac.type = []) ∧
    (Comparator.typeEquivHit c.equivalent_types ec.type ac.type = false →
      (typeAndSize ec.type).1 ≠ (typeAndSize ac.type).1 →
      Comparator.columnTypeFindings c.equivalent_types tn cn ec.type ac.type =
        [tn ++ "." ++ cn ++ ": type mismatch: " ++ ac.type ++ " != " ++ ec.type]) ∧
    (Comparator.typeEquivHit c.equivalent_types ec.type ac.type = false →
      (typeAndSize ec.type).1 = (typeAndSize ac.type).1 →
      (typeAndSize ec.type).2 ≠ (typeAndSize ac.type).2 →
      Comparator.columnTypeFindings c.equivalent_types tn cn ec.type ac.type =
        [tn ++ "." ++ cn ++ ": type size mismatch: " ++ ac.type ++ " != " ++ ec.type]) ∧
    (∀ fs, Comparator.compare_column_type c tn cn = .ok fs → fs.length ≤ 1) := by
  have hval : Comparator.compare_column_type c tn cn =
      .ok (Comparator.columnTypeFindings c.equivalent_types tn cn ec.type ac.type) := by
    unfold Comparator.compare_column_type
    rw [hE, hA]
  refine ⟨hval, ?_, ?_, ?_, ?_⟩
  · intro hhit
    unfold Comparator.columnTypeFindings
    rw [if_pos hhit]
  · intro hhit hne
    unfold Comparator.columnTypeFindings
    rw [if_neg (by rw [hhit]; exact Bool.false_ne_true),
      if_pos (bne_iff_ne.mpr hne)]
  · intro hhit heq hsz
    unfold Comparator.columnTypeFindings
    rw [if_neg (by rw [hhit]; exact Bool.false_ne_true),
      if_neg (by rw [heq]; simp), if_pos (bne_iff_ne.mpr hsz)]
  · intro fs hfs
    rw [hval] at hfs
    injection hfs with hfs'
    subst hfs'
    unfold Comparator.columnTypeFindings
    split
    · simp
    · split
      · simp
      · split
        · simp
        · simp

/-- Comparator whose expected side holds two FOREIGN KEY constraints that
normalize to the same key with different extra parts; the actual side holds
one with the later extra. -/
def exDupFK : Comparator :=
  ⟨⟨[⟨"t", "BASE TABLE", none, [], [],
      [⟨"c1", "FOREIGN KEY (a) REFERENCES b(c) ON DELETE SET NULL"⟩,
       ⟨"c2", "FOREIGN KEY (a) REFERENCES b(c) ON DELETE CASCADE"⟩]⟩]⟩,
   ⟨[⟨"t", "BASE TABLE", none, [], [],
      [⟨"c3", "FOREIGN KEY (a) REFERENCES b(c) ON DELETE CASCADE"⟩]⟩]⟩,
   []⟩

/-- Comparator whose only table carries an index definition with the
unsupported `hash` algorithm on the expected side. -/
def exHash : Comparator :=
  ⟨⟨[⟨"t", "BASE TABLE", none, [],
      [⟨"x", "CREATE INDEX x ON t USING hash (a)"⟩], []⟩]⟩,
   ⟨[⟨"t", "BASE TABLE", none, [], [], []⟩]⟩,
   []⟩

/-- C8: per-table constraint comparison collapses each side's normalized
(key, extra) pairs into a key-to-extra mapping in which, when two
constraints on the same side normalize to the same key, the later entry's
extra silently overrides the earlier one's; the findings are then computed
per distinct key from these two mappings. -/
theorem claim_C8 (c : Comparator) (tn : String) (te ta : Table)
    (pe pa : List (String × Option String))
    (hE : get_table c.expected tn = some te)
    (hA : get_table c.actual tn = some ta)
    (hpe : mapE (fun k => normalize_constraint_definition k.defn) te.constraints = .ok pe)
    (hpa : mapE (fun k => normalize_constraint_definition k.defn) ta.constraints = .ok pa) :
    Comparator.compare_table_constraints c tn =
      .ok (flatList (Comparator.constraintFinding tn pe pa)
        (sortedDedup (pe.map Prod.fst ++ pa.map Prod.fst))) ∧
    (∀ xs ys k v, pe = xs ++ (k, v) :: ys → k ∉ ys.map Prod.fst →
      dlookup pe k = some v) ∧
    (∀ xs ys k v, pa = xs ++ (k, v) :: ys → k ∉ ys.map Prod.fst →
      dlookup pa k = some v) := by
  refine ⟨?_, ?_, ?_⟩
  · unfold Comparator.compare_table_constraints
    rw [hE, hA]
    dsimp only
    rw [hpe, hpa]
    rfl
  · rintro xs ys k v rfl hk
    exact dlookup_last hk
  · rintro xs ys k v rfl hk
    exact dlookup_last hk

theorem claim_C8_witness :
    Comparator.compare_table_constraints exDupFK "t" = .ok [] ∧
    dlookup [("FOREIGN KEY (a) REFERENCES b(c)", some " ON DELETE SET NULL"),
             ("FOREIGN KEY (a) REFERENCES b(c)", some " ON DELETE CASCADE")]
      "FOREIGN KEY (a) REFERENCES b(c)" = some (some " ON DELETE CASCADE") := by
  have h := claim_C8 exDupFK "t"
    ⟨"t", "BASE TABLE", none, [], [],
      [⟨"c1", "FOREIGN KEY (a) REFERENCES b(c) ON DELETE SET NULL"⟩,
       ⟨"c2", "FOREIGN KEY (a) REFERENCES b(c) ON DELETE CASCADE"⟩]⟩
    ⟨"t", "BASE TABLE", none, [], [],
      [⟨"c3", "FOREIGN KEY (a) REFERENCES b(c) ON DELETE CASCADE"⟩]⟩
    [("FOREIGN KEY (a) REFERENCES b(c)", some " ON DELETE SET NULL"),
     ("FOREIGN KEY (a) REFERENCES b(c)", some " ON DELETE CASCADE")]
    [("FOREIGN KEY (a) REFERENCES b(c)", some " ON DELETE CASCADE")]
    (by decide) (by decide) (by decide) (by decide)
  constructor
  · rw [h.1]
    decide
  · exact h.2.1 [("FOREIGN KEY (a) REFERENCES b(c)", some " ON DELETE SET NULL")] []
      "FOREIGN KEY (a) REFERENCES b(c)" (some " ON DELETE CASCADE") rfl (by decide)

/-- C4: comparing a schema, all of whose index and constraint definitions
match the recognized forms, against an identical copy of itself produces
zero findings. -/
theorem claim_C4 (c : Comparator) (hEA : c.expected = c.actual)
    (h : ∀ t ∈ c.expected.tables,
      (∀ i ∈ t.indexes, ∃ r, normalize_index_definition i.defn = .ok r) ∧
      (∀ k ∈ t.constraints, ∃ r, normalize_constraint_definition k.defn = .ok r)) :
    Comparator.compare c = .ok [] := by
  unfold Comparator.compare
  apply collectM_ok_nil_of
  intro tn htn
  have htn2 : tn ∈ table_names c.expected ++ table_names c.actual := by
    apply mem_sortedDedup.mp
    exact htn
  have htn' : tn ∈ table_names c.expected := by
    rcases List.mem_append.mp htn2 with h' | h'
    · exact h'
    · rw [hEA]; exact h'
  obtain ⟨t, hget⟩ := get_table_of_mem_names htn'
  have hgetA : get_table c.actual tn = some t := by rw [← hEA]; exact hget
  have htmem := (get_table_mem hget).1
  have h1 : Comparator.tableTypeFindings tn t t = [] := by
    unfold Comparator.tableTypeFindings; simp
  have h2 : Comparator.tableCommentFindings tn t t = [] := by
    unfold Comparator.tableCommentFindings; simp
  have h3 : Comparator.compare_table_columns c tn = .ok [] := by
    unfold Comparator.compare_table_columns
    rw [column_names_ok hget, column_names_ok hgetA]
    apply collectM_ok_nil_of
    intro cn hcn
    have hcn' : cn ∈ t.columns.map (·.name) := by
      rcases List.mem_append.mp (mem_sortedDedup.mp hcn) with h' | h' <;> exact h'
    obtain ⟨col, hcol⟩ := get_column_of_mem hget hcn'
    have hcolA : get_column c.actual tn cn = some col := by rw [← hEA]; exact hcol
    have ht : Comparator.compare_column_type c tn cn = .ok [] := by
      unfold Comparator.compare_column_type
      rw [hcol, hcolA]
      dsimp only
      have hz : Comparator.columnTypeFindings c.equivalent_types tn cn col.type col.type = [] := by
        unfold Comparator.columnTypeFindings
        split
        · rfl
        · rw [if_neg (by simp), if_neg (by simp)]
      rw [hz]
    have hm : Comparator.compare_column_comment c tn cn = .ok [] := by
      unfold Comparator.compare_column_comment
      rw [hcol, hcolA]
      dsimp only
      have hz : Comparator.columnCommentFindings tn cn col col = [] := by
        unfold Comparator.columnCommentFindings; simp
      rw [hz]
    unfold Comparator.compare_column
    rw [hcol, hcolA]
    dsimp only
    rw [ht, hm]
    rfl
  have h4 : Comparator.compare_table_indexes c tn = .ok [] := by
    unfold Comparator.compare_table_indexes
    rw [hget, hgetA]
    dsimp only
    obtain ⟨en, hen⟩ : ∃ ys, mapE (fun i => normalize_index_definition i.defn) t.indexes = .ok ys :=
      mapE_ok_of_forall (h t htmem).1
    rw [hen]
    dsimp only
    have hz : Comparator.indexFindings tn en en = [] := by
      unfold Comparator.indexFindings
      apply flatList_eq_nil
      intro x hx
      have hx' : x ∈ en := by
        rcases List.mem_append.mp (mem_sortedDedup.mp hx) with h' | h' <;> exact h'
      unfold Comparator.indexFinding
      rw [contains_of_mem hx']
      simp
    rw [hz]
  have h5 : Comparator.compare_table_constraints c tn = .ok [] := by
    unfold Comparator.compare_table_constraints
    rw [hget, hgetA]
    dsimp only
    obtain ⟨ep, hep⟩ : ∃ ys, mapE (fun k => normalize_constraint_definition k.defn) t.constraints = .ok ys :=
      mapE_ok_of_forall (h t htmem).2
    rw [hep]
    dsimp only
    have hz : Comparator.constraintFindings tn ep ep = [] := by
      unfold Comparator.constraintFindings
      apply flatList_eq_nil
      intro k hk
      have hk' : k ∈ ep.map Prod.fst := by
        rcases List.mem_append.mp (mem_sortedDedup.mp hk) with h' | h' <;> exact h'
      obtain ⟨v, hv⟩ := dlookup_isSome_of_mem_keys hk'
      unfold Comparator.constraintFinding
      rw [hv]
      simp
    rw [hz]
  unfold Comparator.compare_table
  rw [has_table_of_get hget, has_table_of_get hgetA]
  dsimp only
  rw [compare_table_type_ok hget hgetA, compare_table_comment_ok hget hgetA, h1, h2]
  dsimp only
  rw [h3]
  dsimp only
  rw [h4]
  dsimp only
  rw [h5]
  rfl

/-- Schema with one table carrying a parseable index and a parseable
constraint, used to instantiate the identity comparison. -/
def exSelf : InspectedSchema :=
  ⟨[⟨"users", "BASE TABLE", some "people",
     [⟨"id", "int4", none⟩, ⟨"email", "varchar(255)", none⟩],
     [⟨"i1", "CREATE UNIQUE INDEX users_pk ON users USING btree (id)"⟩],
     [⟨"k1", "PRIMARY KEY (id)"⟩, ⟨"k2", "UNIQUE (email)"⟩]⟩]⟩

theorem claim_C4_witness : Comparator.compare ⟨exSelf, exSelf, []⟩ = .ok [] := by
  refine claim_C4 ⟨exSelf, exSelf, []⟩ rfl ?_
  intro t ht
  simp only [exSelf, List.mem_singleton] at ht
  subst ht
  constructor
  · intro i hi
    simp only [List.mem_singleton] at hi
    subst hi
    exact ⟨"CREATE UNIQUE INDEX ... ON users USING btree (id)", by decide⟩
  · intro k hk
    rcases List.mem_cons.mp hk with rfl | hk'
    · exact ⟨("PRIMARY KEY (id)", none), by decide⟩
    · simp only [List.mem_singleton] at hk'
      subst hk'
      exact ⟨("UNIQUE (email)", none), by decide⟩

/-- Index definition in the recognized CREATE [UNIQUE] INDEX shape, built
from its five constituents. -/
def mkIdx (uniq : Bool) (nm tb alg cols : List Char) : List Char :=
  (if uniq then cuiPre else ciPre)
    ++ (nm ++ (onSep ++ (tb ++ (usingSep ++ (alg ++ (" (".toList ++ (cols ++ [')'])))))))

/-- The canonical string the normalizer produces for such a definition; it
does not mention the index name. -/
def normIdxOut (uniq : Bool) (tb alg cols : List Char) : List Char :=
  "CREATE".toList ++ (if uniq then " UNIQUE".toList else []) ++ " INDEX ... ON ".toList
    ++ tb ++ usingSep ++ alg ++ " (".toList ++ cols ++ [')']

theorem prefix_getElem? {l₁ l₂ : List Char} (h : l₁.isPrefixOf l₂ = true) {i : Nat}
    (hi : i < l₁.length) : l₂[i]? = l₁[i]? := by
  obtain ⟨t, rfl⟩ := isPrefixOf_ex.mp h
  exact List.getElem?_append_left hi

theorem cui_not_pre (rest : List Char) : cuiPre.isPrefixOf (ciPre ++ rest) = false := by
  cases hp : cuiPre.isPrefixOf (ciPre ++ rest) with
  | false => rfl
  | true =>
    have h1 := prefix_getElem? hp (show (7 : Nat) < cuiPre.length by decide)
    have h2 : (ciPre ++ rest)[7]? = ciPre[7]? := List.getElem?_append_left (by decide)
    rw [h2] at h1
    exact absurd h1 (by decide)

theorem btree_not_prefix_gin (Z : List Char) :
    "btree".toList.isPrefixOf ("gin".toList ++ Z) = false := by
  cases hp : "btree".toList.isPrefixOf ("gin".toList ++ Z) with
  | false => rfl
  | true =>
    have h1 := prefix_getElem? hp (show (0 : Nat) < "btree".toList.length by decide)
    have h2 : ("gin".toList ++ Z)[0]? = "gin".toList[0]? := List.getElem?_append_left (by decide)
    rw [h2] at h1
    exact absurd h1 (by decide)

theorem takeWhile_word_stop (nm X : List Char) (h : ∀ a ∈ nm, isWordChar a = true) :
    (nm ++ (onSep ++ X)).takeWhile isWordChar = nm := by
  have hc : onSep ++ X = ' ' :: ("ON ".toList ++ X) := rfl
  rw [hc]
  exact takeWhile_sandwich h (by decide)

theorem takeWhile_nonspace_stop (tb X : List Char) (h : ∀ a ∈ tb, isSpaceChar a = false) :
    (tb ++ (usingSep ++ X)).takeWhile (fun c => !isSpaceChar c) = tb := by
  have hc : usingSep ++ X = ' ' :: ("USING ".toList ++ X) := rfl
  rw [hc]
  refine takeWhile_sandwich ?_ (by decide)
  intro a ha
  rw [h a ha]
  rfl

theorem idxAfter_mk (uniqStr nm tb alg cols : List Char)
    (hnm : nm ≠ []) (hnmw : ∀ a ∈ nm, isWordChar a = true)
    (htb : tb ≠ []) (htbs : ∀ a ∈ tb, isSpaceChar a = false)
    (halg : alg = "btree".toList ∨ alg = "gin".toList)
    (hcols : nlFree cols = true) :
    idxAfter uniqStr
        (nm ++ (onSep ++ (tb ++ (usingSep ++ (alg ++ (" (".toList ++ (cols ++ [')'])))))))
      = some ("CREATE".toList ++ uniqStr ++ " INDEX ... ON ".toList ++ tb
          ++ usingSep ++ alg ++ " (".toList ++ cols ++ [')']) := by
  have hnme : nm.isEmpty = false := by
    cases nm with
    | nil => exact absurd rfl hnm
    | cons a l => rfl
  have htbe : tb.isEmpty = false := by
    cases tb with
    | nil => exact absurd rfl htb
    | cons a l => rfl
  simp only [idxAfter]
  rw [takeWhile_word_stop nm _ hnmw, List.drop_left nm]
  rw [if_neg (by simp [hnme]), if_pos (isPrefixOf_append onSep _), List.drop_left onSep]
  rw [takeWhile_nonspace_stop tb _ htbs, List.drop_left tb]
  rw [if_neg (by simp [htbe]), if_pos (isPrefixOf_append usingSep _), List.drop_left usingSep]
  rcases halg with rfl | rfl
  · rw [if_pos (isPrefixOf_append "btree".toList _)]
    have hd : ("btree".toList ++ (" (".toList ++ (cols ++ [')']))).drop 5
        = " (".toList ++ (cols ++ [')']) := List.drop_left "btree".toList _
    rw [hd]
    dsimp only
    rw [if_pos (isPrefixOf_append " (".toList _)]
    have hd2 : (" (".toList ++ (cols ++ [')'])).drop 2 = cols ++ [')'] :=
      List.drop_left " (".toList _
    rw [hd2, List.getLast?_concat, List.dropLast_concat]
    rw [if_pos (by simp [hcols])]
  · rw [btree_not_prefix_gin, if_pos (isPrefixOf_append "gin".toList _)]
    have hd : ("gin".toList ++ (" (".toList ++ (cols ++ [')']))).drop 3
        = " (".toList ++ (cols ++ [')']) := List.drop_left "gin".toList _
    rw [if_neg (by simp)]
    rw [hd]
    dsimp only
    rw [if_pos (isPrefixOf_append " (".toList _)]
    have hd2 : (" (".toList ++ (cols ++ [')'])).drop 2 = cols ++ [')'] :=
      List.drop_left " (".toList _
    rw [hd2, List.getLast?_concat, List.dropLast_concat]
    rw [if_pos (by simp [hcols])]

theorem idxParse_mkIdx (uniq : Bool) (nm tb alg cols : List Char)
    (hnm : nm ≠ []) (hnmw : ∀ a ∈ nm, isWordChar a = true)
    (htb : tb ≠ []) (htbs : ∀ a ∈ tb, isSpaceChar a = false)
    (halg : alg = "btree".toList ∨ alg = "gin".toList)
    (hcols : nlFree cols = true) :
    idxParse (mkIdx uniq nm tb alg cols) = some (normIdxOut uniq tb alg cols) := by
  cases uniq with
  | true =>
    unfold idxParse mkIdx
    rw [if_pos rfl, if_pos (isPrefixOf_append cuiPre _), List.drop_left cuiPre]
    rw [idxAfter_mk _ nm tb alg cols hnm hnmw htb htbs halg hcols]
    rfl
  | false =>
    unfold idxParse mkIdx
    rw [if_neg (show ¬ ((false : Bool) = true) by simp)]
    rw [cui_not_pre]
    rw [if_neg (show ¬ ((false : Bool) = true) by simp)]
    rw [if_pos (isPrefixOf_append ciPre _), List.drop_left ciPre]
    rw [idxAfter_mk _ nm tb alg cols hnm hnmw htb htbs halg hcols]
    rfl

/-- C5: index normalization is name-invariant: two definitions in the
recognized CREATE [UNIQUE] INDEX shape that differ only in the index name
normalize to the same value, and a table whose two sides hold such
definitions produces no index finding. -/
theorem claim_C5 (uniq : Bool) (nm1 nm2 tb alg cols : List Char)
    (hnm1 : nm1 ≠ []) (hnm1w : ∀ a ∈ nm1, isWordChar a = true)
    (hnm2 : nm2 ≠ []) (hnm2w : ∀ a ∈ nm2, isWordChar a = true)
    (htb : tb ≠ []) (htbs : ∀ a ∈ tb, isSpaceChar a = false)
    (halg : alg = "btree".toList ∨ alg = "gin".toList)
    (hcols : nlFree cols = true) :
    normalize_index_definition ⟨mkIdx uniq nm1 tb alg cols⟩ =
      normalize_index_definition ⟨mkIdx uniq nm2 tb alg cols⟩ ∧
    normalize_index_definition ⟨mkIdx uniq nm1 tb alg cols⟩ =
      .ok ⟨normIdxOut uniq tb alg cols⟩ ∧
    (∀ (c : Comparator) (tn : String) (te ta : Table) (i1 i2 : Index),
      get_table c.expected tn = some te → get_table c.actual tn = some ta →
      te.indexes = [i1] → ta.indexes = [i2] →
      i1.defn = ⟨mkIdx uniq nm1 tb alg cols⟩ → i2.defn = ⟨mkIdx uniq nm2 tb alg cols⟩ →
      Comparator.compare_table_indexes c tn = .ok []) := by
  have hp1 : idxParse (mkIdx uniq nm1 tb alg cols) = some (normIdxOut uniq tb alg cols) :=
    idxParse_mkIdx uniq nm1 tb alg cols hnm1 hnm1w htb htbs halg hcols
  have hp2 : idxParse (mkIdx uniq nm2 tb alg cols) = some (normIdxOut uniq tb alg cols) :=
    idxParse_mkIdx uniq nm2 tb alg cols hnm2 hnm2w htb htbs halg hcols
  have hn1 : normalize_index_definition ⟨mkIdx uniq nm1 tb alg cols⟩ =
      .ok ⟨normIdxOut uniq tb alg cols⟩ := by
    unfold normalize_index_definition
    rw [show (⟨mkIdx uniq nm1 tb alg cols⟩ : String).toList = mkIdx uniq nm1 tb alg cols
      from rfl, hp1]
  have hn2 : normalize_index_definition ⟨mkIdx uniq nm2 tb alg cols⟩ =
      .ok ⟨normIdxOut uniq tb alg cols⟩ := by
    unfold normalize_index_definition
    rw [show (⟨mkIdx uniq nm2 tb alg cols⟩ : String).toList = mkIdx uniq nm2 tb alg cols
      from rfl, hp2]
  refine ⟨hn1.trans hn2.symm, hn1, ?_⟩
  intro c tn te ta i1 i2 hE hA hte hta h1 h2
  unfold Comparator.compare_table_indexes
  rw [hE, hA]
  dsimp only
  rw [hte, hta]
  have hm1 : mapE (fun i => normalize_index_definition i.defn) [i1]
      = .ok [⟨normIdxOut uniq tb alg cols⟩] := by
    unfold mapE
    rw [h1, hn1]
    rfl
  have hm2 : mapE (fun i => normalize_index_definition i.defn) [i2]
      = .ok [⟨normIdxOut uniq tb alg cols⟩] := by
    unfold mapE
    rw [h2, hn2]
    rfl
  rw [hm1, hm2]
  dsimp only
  have hsd : sortedDedup ([(⟨normIdxOut uniq tb alg cols⟩ : String)]
      ++ [⟨normIdxOut uniq tb alg cols⟩]) = [⟨normIdxOut uniq tb alg cols⟩] := by
    show insSorted _ (insSorted _ []) = _
    simp [insSorted, strLt_irrefl]
  have hz : Comparator.indexFindings tn [⟨normIdxOut uniq tb alg cols⟩]
      [⟨normIdxOut uniq tb alg cols⟩] = [] := by
    unfold Comparator.indexFindings
    rw [hsd]
    apply flatList_eq_nil
    intro x hx
    rw [List.mem_singleton] at hx
    subst hx
    unfold Comparator.indexFinding
    rw [contains_of_mem (List.mem_singleton.mpr rfl)]
    simp
  rw [hz]

/-- Comparator whose two sides hold the idx_1 and idx_42 variants of the
same btree index on users(id). -/
def exIdxNames : Comparator :=
  ⟨⟨[⟨"users", "BASE TABLE", none, [],
      [⟨"i1", "CREATE INDEX idx_1 ON users USING btree (id)"⟩], []⟩]⟩,
   ⟨[⟨"users", "BASE TABLE", none, [],
      [⟨"i2", "CREATE INDEX idx_42 ON users USING btree (id)"⟩], []⟩]⟩,
   []⟩

theorem claim_C5_witness :
    Comparator.compare_table_indexes exIdxNames "users" = .ok [] := by
  have h := claim_C5 false "idx_1".toList "idx_42".toList "users".toList
    "btree".toList "id".toList
    (by decide) (by decide) (by decide) (by decide) (by decide) (by decide)
    (Or.inl rfl) (by decide)
  refine h.2.2 exIdxNames "users"
    ⟨"users", "BASE TABLE", none, [], [⟨"i1", "CREATE INDEX idx_1 ON users USING btree (id)"⟩], []⟩
    ⟨"users", "BASE TABLE", none, [], [⟨"i2", "CREATE INDEX idx_42 ON users USING btree (id)"⟩], []⟩
    ⟨"i1", "CREATE INDEX idx_1 ON users USING btree (id)"⟩
    ⟨"i2", "CREATE INDEX idx_42 ON users USING btree (id)"⟩
    (by decide) (by decide) (by decide) (by decide) (by decide) (by decide)

/-- C2: the comparison run raises the unsupported-definition-form error
exactly when some index or constraint definition in a table present on both
sides matches none of the recognized patterns; the error raised is the one
produced at the first offending table in sorted table-name order, every
earlier table having completed normally; and the definition
`CREATE INDEX x ON t USING hash (a)` is such an unsupported form. -/
theorem claim_C2 (c : Comparator) :
    ((∃ e, Comparator.compare c = .error e) ↔
      ∃ tn te ta, get_table c.expected tn = some te ∧ get_table c.actual tn = some ta ∧
        ((∃ i ∈ te.indexes ++ ta.indexes, ∃ e, normalize_index_definition i.defn = .error e) ∨
         (∃ k ∈ te.constraints ++ ta.constraints, ∃ e,
           normalize_constraint_definition k.defn = .error e))) ∧
    (∀ e, Comparator.compare c = .error e →
      ∃ tn ∈ Comparator.sorted_table_names c, Comparator.compare_table c tn = .error e ∧
        ∀ m ∈ Comparator.sorted_table_names c, strLt m tn = true →
          ∃ fs, Comparator.compare_table c m = .ok fs) ∧
    normalize_index_definition "CREATE INDEX x ON t USING hash (a)" =
      .error "Cannot parse index definition: CREATE INDEX x ON t USING hash (a)" := by
  refine ⟨⟨?_, ?_⟩, ?_, by decide⟩
  · rintro ⟨e, he⟩
    unfold Comparator.compare at he
    obtain ⟨tn, htn, hte⟩ := collectM_error_exists he
    obtain ⟨te, ta, hE, hA, hbad⟩ := (compare_table_error_iff c tn).mp ⟨e, hte⟩
    exact ⟨tn, te, ta, hE, hA, hbad⟩
  · rintro ⟨tn, te, ta, hE, hA, hbad⟩
    obtain ⟨e, he⟩ := (compare_table_error_iff c tn).mpr ⟨te, ta, hE, hA, hbad⟩
    have htn : tn ∈ Comparator.sorted_table_names c := by
      apply mem_sortedDedup.mpr
      exact List.mem_append.mpr (Or.inl (mem_table_names_of_get hE))
    obtain ⟨e', he'⟩ := collectM_error_of_mem htn he
    exact ⟨e', he'⟩
  · intro e he
    unfold Comparator.compare at he
    exact collectM_first_error (pairwise_sortedDedup _) he

theorem claim_C2_witness : ∃ e, Comparator.compare exHash = .error e := by
  refine (claim_C2 exHash).1.mpr ?_
  refine ⟨"t",
    ⟨"t", "BASE TABLE", none, [], [⟨"x", "CREATE INDEX x ON t USING hash (a)"⟩], []⟩,
    ⟨"t", "BASE TABLE", none, [], [], []⟩,
    by decide, by decide, Or.inl ?_⟩
  exact ⟨⟨"x", "CREATE INDEX x ON t USING hash (a)"⟩, by decide,
    "Cannot parse index definition: CREATE INDEX x ON t USING hash (a)", by decide⟩

theorem claim_C3_witness :
    Comparator.columnTypeFindings exNumeric.equivalent_types "t" "price"
        "numeric(10,2)" "numeric(10,4)" =
      ["t.price: type size mismatch: numeric(10,4) != numeric(10,2)"] ∧
    Comparator.compare exNumeric =
      .ok ["t.price: type size mismatch: numeric(10,4) != numeric(10,2)"] := by
  constructor
  · have h := claim_C3 exNumeric "t" "price" ⟨"price", "numeric(10,2)", none⟩
      ⟨"price", "numeric(10,4)", none⟩ (by decide) (by decide)
    exact h.2.2.2.1 (by decide) (by decide) (by decide)
  · decide

end SchemaSync
